import Mathlib

set_option maxHeartbeats 1000000
set_option maxRecDepth 4000

/-! Shallow embedding of the waluigi experiment-planning core
(src/structs.rs together with the error taxonomy of src/errors.rs).

Modelling conventions:
* Rust HashMap values are modelled as association lists with lookupA
  (first match, as HashMap lookup on unique keys) and insertA (replace the
  first entry carrying the key, else append), matching HashMap insert
  semantics; a HashMap's iteration order is unspecified in Rust and the
  list order stands in for one concrete iteration order.
* f64 is modelled as Rat; usize as Nat.
* Code that can panic or loop forever (unwrap_usize, the while loops of
  FieldSetting::vectorize) returns RunRes, with an explicit fuel argument
  for the loops; RunRes.panic models a Rust panic and RunRes.diverge
  models fuel exhaustion of a loop that has not yet finished.
-/

namespace Waluigi

/-- Outcome of running possibly-panicking, possibly-diverging code. -/
inductive RunRes (α : Type) where
  | ok : α → RunRes α
  | panic : RunRes α
  | diverge : RunRes α
deriving DecidableEq

def RunRes.bind {α β : Type} : RunRes α → (α → RunRes β) → RunRes β
  | .ok a, f => f a
  | .panic, _ => .panic
  | .diverge, _ => .diverge

def RunRes.map {α β : Type} (f : α → β) : RunRes α → RunRes β
  | .ok a => .ok (f a)
  | .panic => .panic
  | .diverge => .diverge

/-- HashMap lookup: the value of the first entry carrying the key. -/
def lookupA {α : Type} (m : List (String × α)) (k : String) : Option α :=
  (m.find? (fun e => e.1 = k)).map (fun e => e.2)

/-- HashMap insert: replace the first entry carrying the key, else append. -/
def insertA {α : Type} : List (String × α) → String → α → List (String × α)
  | [], k, v => [(k, v)]
  | (k1, v1) :: rest, k, v =>
    if k1 = k then (k, v) :: rest else (k1, v1) :: insertA rest k v

/-- HashMap::extend: insert every entry of the second map into the first. -/
def extendA {α : Type} (p q : List (String × α)) : List (String × α) :=
  q.foldl (fun acc e => insertA acc e.1 e.2) p

/-- FieldType (src/structs.rs lines 7-16). -/
inductive FieldType where
  | Str
  | Path
  | UInt
  | Float
  | Bool
deriving DecidableEq

abbrev BoolT := Bool

/-- FieldData (src/structs.rs lines 180-188); Float carries a Rat model of f64. -/
inductive FieldData where
  | Future
  | Str : String → FieldData
  | Float : Rat → FieldData
  | UInt : Nat → FieldData
  | Bool : BoolT → FieldData
deriving DecidableEq

abbrev FieldList := List FieldData

/-- FieldSetting (src/structs.rs lines 218-228): Range carries from, to, step. -/
inductive FieldSetting where
  | Range : FieldData → FieldData → FieldData → FieldSetting
  | List : FieldList → FieldSetting
  | Value : FieldData → FieldSetting
deriving DecidableEq

/-- FieldType::matches (src/structs.rs lines 19-29).  A Rat has zero
fractional part (the f64 test f.trunc() == f) exactly when its denominator
is 1. -/
def FieldType.matches : FieldType → FieldData → BoolT
  | t, .Str _ => t == .Str || t == .Path
  | t, .UInt _ => t == .UInt
  | t, .Float f => t == .Float || (t == .UInt && f.den == 1)
  | t, .Bool _ => t == .Bool
  | t, .Future => t == .Str

/-- FieldType::matches_setting (src/structs.rs lines 31-40). -/
def FieldType.matches_setting : FieldType → FieldSetting → BoolT
  | t, .Range lo hi st =>
    (t == .UInt || t == .Float) && t.matches lo && t.matches hi && t.matches st
  | t, .List l => l.all (fun d => t.matches d)
  | t, .Value v => t.matches v

/-- BatchType (src/structs.rs lines 43-55); schema-only metadata. -/
inductive BatchType where
  | Max
  | Join : String → BatchType
  | None
deriving DecidableEq

/-- Field (src/structs.rs lines 57-67). -/
structure Field where
  dtype : FieldType
  aka : List String := []
  option : Option String := none
  batch : BatchType := BatchType.None
deriving DecidableEq

/-- Output (src/structs.rs lines 97-103). -/
structure Output where
  msg : String
  aka : List String := []
deriving DecidableEq

/-- Program (src/structs.rs lines 105-113); the two HashMaps are
association lists. -/
structure Program where
  name : String
  bin : String
  format : String
  outputs : List (String × Output)
  fields : List (String × Field)

/-- ErrorKind (src/errors.rs lines 18-48); only the planner-relevant
variants (the foreign IO and Yaml links carry no planning content). -/
inductive ErrorKind where
  | FieldMismatch : FieldType → FieldData → ErrorKind
  | InvalidProgram : String → List String → ErrorKind
  | MissingParameter : String → String → ErrorKind
  | InvalidParameterSetting : String → FieldSetting → FieldType → ErrorKind
  | InvalidParameterData : String → FieldData → FieldType → ErrorKind
  | UnknownDependency : String → String → ErrorKind
deriving DecidableEq

/-- Smallest k with d dividing 10 to the k, when one exists (it does for
every denominator of a dyadic rational, hence for every exact f64). -/
def pow10Exp (d : Nat) : Option Nat :=
  (List.range (d + 1)).find? (fun k => 10 ^ k % d == 0)

/-- Decimal digits of n with a point k places from the right (k = 0 gives
the bare integer, as Rust Display for an integral f64 prints no point). -/
def natDecimal (n k : Nat) : String :=
  if k = 0 then String.mk (Nat.toDigits 10 n)
  else
    let s := Nat.toDigits 10 n
    let s := List.replicate (k + 1 - s.length) '0' ++ s
    let m := s.length - k
    String.mk (s.take m ++ '.' :: s.drop m)

/-- Rust f64 Display modelled on Rat: shortest exact decimal form.  On
every rational with a 2-5-smooth denominator (every exact f64 value) this
is the terminating decimal with no trailing zeros; the fallback branch is
unreachable for f64-representable inputs. -/
def ratToString (q : Rat) : String :=
  let sign := if q.num < 0 then "-" else ""
  match pow10Exp q.den with
  | some k => sign ++ natDecimal (q.num.natAbs * 10 ^ k / q.den) k
  | none => sign ++ natDecimal q.num.natAbs 0 ++ "/" ++ natDecimal q.den 0

/-- impl ToString for FieldData (src/structs.rs lines 206-216). -/
def FieldData.to_string : FieldData → String
  | .Str s => s
  | .UInt v => String.mk (Nat.toDigits 10 v)
  | .Float v => ratToString v
  | .Bool b => if b then "true" else "false"
  | .Future => ""

/-- FieldData::unwrap_usize (src/structs.rs lines 191-196): panics unless
the datum is a UInt. -/
def FieldData.unwrap_usize : FieldData → RunRes Nat
  | .UInt u => .ok u
  | _ => .panic

/-- FieldData::unwrap_float (src/structs.rs lines 198-203). -/
def FieldData.unwrap_float : FieldData → RunRes Rat
  | .Float u => .ok u
  | _ => .panic

/-- Split a character list at its first close angle bracket, refusing to
cross a newline (the regex dot of the option placeholder pattern does not
match newlines). -/
def findGt : List Char → Option (List Char × List Char)
  | [] => none
  | c :: rest =>
    if c = '>' then some ([], rest)
    else if c = '\n' then none
    else (findGt rest).map (fun p => (c :: p.1, p.2))

/-- Split a character list at its first close brace, as the braced-name
scan of the regex replacement syntax does (any characters may appear
before the brace; an unclosed brace yields none). -/
def splitAtRBrace : List Char → Option (List Char × List Char)
  | [] => none
  | c :: rest =>
    if c = '\x7d' then some ([], rest)
    else (splitAtRBrace rest).map (fun p => (c :: p.1, p.2))

/-- A character the regex replacement syntax allows in an unbraced
capture reference: an ASCII digit, letter, or underscore. -/
def isCapLetter (c : Char) : Bool :=
  c.isDigit || c.isUpper || c.isLower || c = '_'

/-- Resolve one capture reference of the placeholder pattern against its
single capture group: group 0 (a nonempty all-zero digit string) is the
whole matched text, and every other reference — any other number, any
name — resolves to no group and expands to the empty string. -/
def capSubst (matched ref : List Char) : List Char :=
  if ref ≠ [] ∧ ref.all (fun c => c = '0') then matched else []

/-- One fuel-indexed pass of the regex crate replacement expansion over
the replacement text: text is copied until a dollar sign; a double
dollar emits one literal dollar; a dollar before a braced name consumes
up to the close brace (an unclosed brace leaves the dollar literal); a
dollar before a run of reference characters consumes the longest such
run; any other dollar is literal.  Fuel at least the text length
suffices, since every step consumes at least one character. -/
def expandGo (matched : List Char) : Nat → List Char → List Char
  | _, [] => []
  | 0, rep => rep
  | fuel + 1, c :: rest =>
    if c = '$' then
      match rest with
      | [] => ['$']
      | a :: rest2 =>
        if a = '$' then '$' :: expandGo matched fuel rest2
        else if a = '\x7b' then
          match splitAtRBrace rest2 with
          | some (ref, post) => capSubst matched ref ++ expandGo matched fuel post
          | none => '$' :: expandGo matched fuel rest
        else if isCapLetter a then
          capSubst matched (rest.takeWhile isCapLetter) ++
            expandGo matched fuel (rest.drop (rest.takeWhile isCapLetter).length)
        else '$' :: expandGo matched fuel rest
    else c :: expandGo matched fuel rest

/-- The regex crate's expansion of a string replacement (Regex::replace
with a string replacement expands dollar references against the match's
captures): substitute each capture reference in the replacement text,
where the only capture of the placeholder pattern is group 0, the
matched placeholder text itself. -/
def expandRepl (matched rep : List Char) : List Char :=
  expandGo matched rep.length rep

/-- Leftmost-shortest replacement of one angle-bracket placeholder, the
behaviour of Regex::replace with the non-greedy placeholder pattern used
by Field::fill_with: at each start position, an opening bracket followed
by at least one non-newline character up to the nearest close bracket is
the match; only the first match is replaced, by the dollar-expansion of
the replacement text against that match. -/
def replacePH (rep : List Char) : List Char → List Char
  | [] => []
  | c :: rest =>
    if c = '<' then
      match rest with
      | [] => [c]
      | a :: rest2 =>
        if a = '\n' then c :: replacePH rep rest
        else
          match findGt rest2 with
          | some (pre, post) => expandRepl ('<' :: a :: (pre ++ ['>'])) rep ++ post
          | none => c :: replacePH rep rest
    else c :: replacePH rep rest

/-- Field::matches (src/structs.rs lines 70-72). -/
def Field.matches (fld : Field) (datum : FieldData) : BoolT :=
  fld.dtype.matches datum

/-- Field::fill_with (src/structs.rs lines 74-94). -/
def Field.fill_with (fld : Field) (datum : FieldData) : Except ErrorKind String :=
  if fld.matches datum then
    match fld.option with
    | some opt =>
      match datum with
      | .Bool false => .ok ""
      | .Bool true => .ok opt
      | _ => .ok (String.mk (replacePH datum.to_string.data opt.data))
    | none => .ok datum.to_string
  else
    .error (.FieldMismatch fld.dtype datum)

/-- The loop body of Program::cmd (src/structs.rs lines 116-129): fold the
given concrete parameters over the accumulated command string, skipping
undeclared or mistyped fields, substituting the named placeholder for
non-option fields and appending the rendered fragment for option fields. -/
def cmdGo (prog : Program) : String → List (String × FieldData) → Except ErrorKind String
  | fmt, [] => .ok fmt
  | fmt, (field, datum) :: rest =>
    match lookupA prog.fields field with
    | some fld =>
      if fld.matches datum then
        match fld.option with
        | none =>
          match fld.fill_with datum with
          | .ok s => cmdGo prog (fmt.replace ("<" ++ field ++ ">") s) rest
          | .error e => .error e
        | some _ =>
          match fld.fill_with datum with
          | .ok s => cmdGo prog (fmt ++ s) rest
          | .error e => .error e
      else cmdGo prog fmt rest
    | none => cmdGo prog fmt rest

/-- Program::cmd (src/structs.rs lines 116-129). -/
def Program.cmd (prog : Program) (params : List (String × FieldData)) : Except ErrorKind String :=
  cmdGo prog (prog.bin ++ " " ++ prog.format) params

/-- The loop of Program::validate_parameters (src/structs.rs lines
131-153), walking the declared fields in order. -/
def vpGo (pname : String) (params : List (String × FieldSetting)) :
    List (String × Field) → Except ErrorKind Unit
  | [] => .ok ()
  | (field, details) :: rest =>
    match lookupA params field with
    | none =>
      match details.option with
      | none => .error (.MissingParameter field pname)
      | some _ => vpGo pname params rest
    | some param =>
      if details.dtype.matches_setting param then vpGo pname params rest
      else .error (.InvalidParameterSetting field param details.dtype)

/-- Program::validate_parameters (src/structs.rs lines 131-153). -/
def Program.validate_parameters (prog : Program)
    (params : List (String × FieldSetting)) : Except ErrorKind Unit :=
  vpGo prog.name params prog.fields

/-- The loop of Program::validate_parameter_data (src/structs.rs lines
155-177). -/
def vpdGo (pname : String) (params : List (String × FieldData)) :
    List (String × Field) → Except ErrorKind Unit
  | [] => .ok ()
  | (field, details) :: rest =>
    match lookupA params field with
    | none =>
      match details.option with
      | none => .error (.MissingParameter field pname)
      | some _ => vpdGo pname params rest
    | some param =>
      if details.dtype.matches param then vpdGo pname params rest
      else .error (.InvalidParameterData field param details.dtype)

/-- Program::validate_parameter_data (src/structs.rs lines 155-177). -/
def Program.validate_parameter_data (prog : Program)
    (params : List (String × FieldData)) : Except ErrorKind Unit :=
  vpdGo prog.name params prog.fields

/-- The usize modulus: on the 64-bit targets this tool builds for, the
release-profile cur += step of the range loop wraps at 2 to the 64 (a
debug build would panic at the same addition instead of wrapping). -/
def USIZE : Nat := 2 ^ 64

/-- The UInt while loop of FieldSetting::vectorize (src/structs.rs lines
236-245), fuel-indexed: push cur while cur is at most the end, then step
by the wrapping usize addition; out of fuel models non-termination (a
zero step, or a wrap that keeps cur at most the end forever, never
terminates). -/
def rangeLoopU (e s : Nat) : Nat → Nat → RunRes (List Nat)
  | 0, _ => .diverge
  | fuel + 1, cur =>
    if cur ≤ e then
      match rangeLoopU e s fuel ((cur + s) % USIZE) with
      | .ok l => .ok (cur :: l)
      | .panic => .panic
      | .diverge => .diverge
    else .ok []

/-- The Float while loop of FieldSetting::vectorize (src/structs.rs lines
246-255), parameterized by the addition used for cur += step: the guard
and the emitted values are independent of how the addition rounds, and
every Float-range theorem below is proved for an arbitrary addition. -/
def rangeLoopF (addf : Rat → Rat → Rat) (e s : Rat) : Nat → Rat → RunRes (List Rat)
  | 0, _ => .diverge
  | fuel + 1, cur =>
    if cur ≤ e then
      match rangeLoopF addf e s fuel (addf cur s) with
      | .ok l => .ok (cur :: l)
      | .panic => .panic
      | .diverge => .diverge
    else .ok []

/-- Stand-in for one f64 addition of the Float range loop: the source
accumulates with IEEE binary64 rounding after every addition, which this
exact Rat sum does not reproduce; no theorem in this file depends on the
value this stand-in returns, because every Float-range statement is
proved for an arbitrary addition function via rangeLoopF. -/
def f64Add (a b : Rat) : Rat := a + b

/-- FieldSetting::vectorize (src/structs.rs lines 231-263).  A Range whose
from is neither UInt nor Float reaches the unreachable arm, modelled as a
panic; unwrap_usize and unwrap_float panic on mixed-type ranges. -/
def FieldSetting.vectorize (fuel : Nat) : FieldSetting → RunRes FieldList
  | .Range lo hi st =>
    match lo with
    | .UInt start =>
      hi.unwrap_usize.bind fun e =>
        st.unwrap_usize.bind fun s =>
          (rangeLoopU e s fuel start).map (fun l => l.map FieldData.UInt)
    | .Float start =>
      hi.unwrap_float.bind fun e =>
        st.unwrap_float.bind fun s =>
          (rangeLoopF f64Add e s fuel start).map (fun l => l.map FieldData.Float)
    | _ => .panic
  | .List v => .ok v
  | .Value v => .ok [v]

/-- Job (src/structs.rs lines 266-273). -/
structure Job where
  run : String
  parameters : List (String × FieldSetting)
  repetitions : Option Nat := none
  on_each : Option (List String) := none

/-- Job::has_depends (src/structs.rs lines 276-278). -/
def Job.has_depends (j : Job) : BoolT :=
  j.on_each.isSome

/-- Concrete parameter assignment: the HashMap of one planned instance. -/
abbrev Params := List (String × FieldData)

/-- Vectorize every field setting of a job (src/structs.rs lines 281-285),
keeping the field order of the parameter map. -/
def vectorizeAll (fuel : Nat) : List (String × FieldSetting) → RunRes (List (String × FieldList))
  | [] => .ok []
  | (k, s) :: rest =>
    (s.vectorize fuel).bind fun vs =>
      (vectorizeAll fuel rest).map (fun l => (k, vs) :: l)

/-- The recursive cartesian product prod of Job::batch (src/structs.rs
lines 287-309): take the first remaining key, recurse on the rest, and
insert each of the key's values into each subproduct. -/
def prodMaps : List (String × FieldList) → List Params
  | [] => [[]]
  | (key, vals) :: rest =>
    (prodMaps rest).flatMap (fun p => vals.map (fun d => insertA p key d))

/-- The cycle-enumerate-take tail of Job::batch (src/structs.rs lines
311-321): index i of the cycled product is element i mod rl tagged with
the synthetic repetition key bound to i div rl. -/
def batchAssign (run : String) (reps : Nat) (res : List Params) : List Params :=
  let rl := res.length
  (List.range (reps * rl)).map fun i =>
    insertA (res.getD (i % rl) []) ("repetition-" ++ run) (FieldData.UInt (i / rl))

/-- Job::batch (src/structs.rs lines 280-322); the Rust Result wrapper is
always Ok, while panics and divergence of vectorize surface via RunRes. -/
def Job.batch (fuel : Nat) (j : Job) : RunRes (List Params) :=
  (vectorizeAll fuel j.parameters).map fun psets =>
    batchAssign j.run (j.repetitions.getD 1) (prodMaps psets)

/-- JobInstance (src/structs.rs lines 414-423). -/
structure JobInstance where
  id : Option Nat
  command : String
  params : Params
  log : String
  depends : List Nat
  threads : Nat
deriving DecidableEq

/-- The planner state of Experiment::plan: the id counter and the planned
job-name table (src/structs.rs lines 338, 352). -/
structure PlanState where
  id : Nat
  jobmap : List (String × List JobInstance)
deriving DecidableEq

/-- The jobify closure of Experiment::plan (src/structs.rs lines 339-351)
at a given value of the id counter. -/
def jobify (prog : Program) (threads i : Nat) (params : Params) (deps : List Nat) :
    Except ErrorKind JobInstance :=
  (prog.cmd params).map fun c =>
    { id := some i, command := c, params := params, log := "", depends := deps,
      threads := threads }

/-- Map jobify over a batch, threading the id counter, stopping at the
first error (the collect over Results in src/structs.rs lines 363-366). -/
def jobifyList (prog : Program) (threads : Nat) : Nat → List (Params × List Nat) →
    Except ErrorKind (List JobInstance)
  | _, [] => .ok []
  | i, (p, ds) :: rest =>
    match jobify prog threads i p ds with
    | .error e => .error e
    | .ok inst =>
      match jobifyList prog threads (i + 1) rest with
      | .error e => .error e
      | .ok l => .ok (inst :: l)

/-- validate_parameter_data then jobify, per element (src/structs.rs lines
398-404). -/
def validateJobifyList (prog : Program) (threads : Nat) : Nat → List (Params × List Nat) →
    Except ErrorKind (List JobInstance)
  | _, [] => .ok []
  | i, (p, ds) :: rest =>
    match prog.validate_parameter_data p with
    | .error e => .error e
    | .ok _ =>
      match jobify prog threads i p ds with
      | .error e => .error e
      | .ok inst =>
        match validateJobifyList prog threads (i + 1) rest with
        | .error e => .error e
        | .ok l => .ok (inst :: l)

/-- One dependency-instance merge of Experiment::plan (src/structs.rs
lines 380-391): extend the current assignment with the dependency
instance's params (dependency values win on collision), then with one
Future entry per output the dependency program declares, and append the
dependency instance's id (unwrap panics on a missing id). -/
def mergeDep (dprog : Program) (inst : JobInstance) (pr : Params × List Nat) :
    RunRes (Params × List Nat) :=
  match inst.id with
  | some i =>
    .ok (extendA (extendA pr.1 inst.params)
           (dprog.outputs.map (fun e => (e.1, FieldData.Future))), pr.2 ++ [i])
  | none => .panic

/-- Sequence a RunRes-valued function over a list. -/
def mapRR {α β : Type} (f : α → RunRes β) : List α → RunRes (List β)
  | [] => .ok []
  | a :: l =>
    (f a).bind fun b => (mapRR f l).map (fun bs => b :: bs)

/-- The flat_map over one dependency's planned instances (src/structs.rs
lines 376-394): every current (assignment, deps) pair crossed with every
instance of the dependency. -/
def expandOneDep (dprog : Program) (insts : List JobInstance)
    (cur : List (Params × List Nat)) : RunRes (List (Params × List Nat)) :=
  (mapRR (fun pr => mapRR (fun inst => mergeDep dprog inst pr) insts) cur).map List.flatten

/-- The for-loop over on_each dependencies (src/structs.rs lines 370-395):
a dependency absent from the planned table aborts with UnknownDependency;
indexing programs with an unplanned name would panic. -/
def expandDeps (progs : List (String × Program)) (jobmap : List (String × List JobInstance))
    (run : String) : List String → List (Params × List Nat) →
    RunRes (Except ErrorKind (List (Params × List Nat)))
  | [], cur => .ok (.ok cur)
  | d :: rest, cur =>
    match lookupA jobmap d with
    | none => .ok (.error (.UnknownDependency run d))
    | some insts =>
      match lookupA progs d with
      | none => .panic
      | some dprog =>
        (expandOneDep dprog insts cur).bind (expandDeps progs jobmap run rest)

/-- The per-job body of Experiment::plan (src/structs.rs lines 353-406):
resolve the program, then either validate settings, batch and jobify (no
dependencies), or batch, fold the dependency cross products, validate the
merged concrete data and jobify (with dependencies); the new instance
sequence is inserted under the job's run name and the id counter advances
once per created instance. -/
def planJob (progs : List (String × Program)) (threads fuel : Nat) (st : PlanState)
    (job : Job) : RunRes (Except ErrorKind PlanState) :=
  match lookupA progs job.run with
  | none => .ok (.error (.InvalidProgram job.run (progs.map (fun e => e.1))))
  | some prog =>
    match job.on_each with
    | none =>
      match prog.validate_parameters job.parameters with
      | .error e => .ok (.error e)
      | .ok _ =>
        (job.batch fuel).map fun b =>
          (jobifyList prog threads st.id (b.map (fun p => (p, [])))).map fun insts =>
            ⟨st.id + insts.length, insertA st.jobmap job.run insts⟩
    | some deps =>
      (job.batch fuel).bind fun b =>
        (expandDeps progs st.jobmap job.run deps (b.map (fun p => (p, [])))).map fun r =>
          r.bind fun cur =>
            (validateJobifyList prog threads st.id cur).map fun insts =>
              ⟨st.id + insts.length, insertA st.jobmap job.run insts⟩

/-- The job loop of Experiment::plan (src/structs.rs lines 353-406). -/
def planJobs (progs : List (String × Program)) (threads fuel : Nat) :
    PlanState → List Job → RunRes (Except ErrorKind PlanState)
  | st, [] => .ok (.ok st)
  | st, j :: rest =>
    (planJob progs threads fuel st j).bind fun r =>
      match r with
      | .error e => .ok (.error e)
      | .ok st2 => planJobs progs threads fuel st2 rest

/-- Experiment (src/structs.rs lines 325-329). -/
structure Experiment where
  jobs : List Job

/-- Experiment::plan (src/structs.rs lines 331-412): run the job loop from
a zero id counter and an empty table, then flatten the table's instance
sequences. -/
def Experiment.plan (e : Experiment) (threads : Nat) (progs : List (String × Program))
    (fuel : Nat) : RunRes (Except ErrorKind (List JobInstance)) :=
  (planJobs progs threads fuel ⟨0, []⟩ e.jobs).map
    (Except.map (fun st => st.jobmap.flatMap (fun e => e.2)))

/-- Count of entries of an association list carrying a key. -/
def countKey {α : Type} (m : List (String × α)) (k : String) : Nat :=
  m.countP (fun e => decide (e.1 = k))

/-- All instance ids recorded in a planned table. -/
def allIds (m : List (String × List JobInstance)) : List Nat :=
  m.flatMap (fun e => e.2.filterMap (fun i => i.id))

/-- Number of iterations of the UInt range loop (for a positive step). -/
def numIters (e s cur : Nat) : Nat :=
  if cur ≤ e then (e - cur) / s + 1 else 0

/-- Closed form of the UInt range loop output (for a positive step). -/
def rangeClosed (e s cur : Nat) : List Nat :=
  (List.range (numIters e s cur)).map (fun i => cur + i * s)

/-- Planner well-formedness: planned-table keys are distinct, every
recorded instance has an id below the counter with depends entries below
its own id, all recorded ids are pairwise distinct, and each planned
sequence carries its ids in strictly increasing creation order. -/
def StWF (st : PlanState) : Prop :=
  (st.jobmap.map (fun e => e.1)).Nodup ∧
  (∀ e ∈ st.jobmap, ∀ inst ∈ e.2, ∃ n, inst.id = some n ∧ n < st.id ∧
    ∀ d ∈ inst.depends, d < n) ∧
  (allIds st.jobmap).Nodup ∧
  (∀ e ∈ st.jobmap, (e.2.filterMap (fun i => i.id)).Pairwise (· < ·))

/-- Decidable equality for Except results of the embedded functions. -/
instance exceptDecEq {ε α : Type} [DecidableEq ε] [DecidableEq α] :
    DecidableEq (Except ε α) := fun a b =>
  match a, b with
  | .ok x, .ok y =>
    if h : x = y then isTrue (by rw [h])
    else isFalse (by intro hh; cases hh; exact h rfl)
  | .ok _, .error _ => isFalse (by intro h; cases h)
  | .error _, .ok _ => isFalse (by intro h; cases h)
  | .error x, .error y =>
    if h : x = y then isTrue (by rw [h])
    else isFalse (by intro hh; cases hh; exact h rfl)

/-! Concrete data used by witnesses and demonstrations. -/

/-- A dependency program declaring one output and no fields. -/
def progDemoA : Program := ⟨"A", "pa", "", [("out", ⟨"m", []⟩)], []⟩

/-- A dependent program with no outputs and no fields. -/
def progDemoB : Program := ⟨"B", "pb", "", [], []⟩

/-- A planned instance of progDemoA with a given id. -/
def aInst (i : Nat) : JobInstance :=
  ⟨some i, "pa ", [("x", FieldData.UInt i)], "", [], 6⟩

/-- A planner state in which three instances of A are already planned. -/
def stDemo : PlanState := ⟨3, [("A", [aInst 0, aInst 1, aInst 2])]⟩

/-- A job depending on A with its own cartesian size 2. -/
def jobDemoB : Job := ⟨"B", [("q", FieldSetting.List [.UInt 1, .UInt 2])], none, some ["A"]⟩

/-- Program table for the dependency-linking demonstration. -/
def progsDemo : List (String × Program) := [("A", progDemoA), ("B", progDemoB)]

/-- The batch of jobDemoB: its own cartesian size 2 with repetition tag. -/
def batchDemoB : List Params :=
  [[("q", FieldData.UInt 1), ("repetition-B", FieldData.UInt 0)],
   [("q", FieldData.UInt 2), ("repetition-B", FieldData.UInt 0)]]

/-- A job with setting cardinalities 3 and 2 and two repetitions. -/
def jobDemoC : Job :=
  ⟨"J", [("a", FieldSetting.List [.UInt 1, .UInt 2, .UInt 3]),
         ("b", FieldSetting.List [.UInt 4, .UInt 5])], some 2, none⟩

/-- The vectorized settings of jobDemoC. -/
def psetsDemo : List (String × FieldList) :=
  [("a", [FieldData.UInt 1, FieldData.UInt 2, FieldData.UInt 3]),
   ("b", [FieldData.UInt 4, FieldData.UInt 5])]

/-- One-job experiment used to exercise a full planning pass. -/
def expSingle : Experiment := ⟨[⟨"P", [], none, none⟩]⟩

/-- Program table for the one-job experiment. -/
def progsSingle : List (String × Program) := [("P", ⟨"P", "p", "", [], []⟩)]

/-- The single instance the one-job experiment plans. -/
def instSingle : JobInstance := ⟨some 0, "p ", [("repetition-P", FieldData.UInt 0)], "", [], 4⟩

/-- Experiment whose third job reuses the run name of its first job while
the second job depends on the first. -/
def expReplace : Experiment :=
  ⟨[⟨"a", [("p", FieldSetting.List [.UInt 1, .UInt 2])], none, none⟩,
    ⟨"b", [], none, some ["a"]⟩,
    ⟨"a", [("p", FieldSetting.List [.UInt 1, .UInt 2])], none, none⟩]⟩

/-- Program table for expReplace. -/
def progsReplace : List (String × Program) :=
  [("a", ⟨"a", "pa", "", [], []⟩), ("b", ⟨"b", "pb", "", [], []⟩)]

/-- First instance of the re-planned job a (ids 4 and 5 follow b's 2, 3). -/
def instRepA1 : JobInstance :=
  ⟨some 4, "pa ", [("p", FieldData.UInt 1), ("repetition-a", FieldData.UInt 0)], "", [], 1⟩

/-- Second instance of the re-planned job a. -/
def instRepA2 : JobInstance :=
  ⟨some 5, "pa ", [("p", FieldData.UInt 2), ("repetition-a", FieldData.UInt 0)], "", [], 1⟩

/-- First instance of job b, depending on the replaced instance id 0. -/
def instRepB1 : JobInstance :=
  ⟨some 2, "pb ", [("repetition-b", FieldData.UInt 0), ("p", FieldData.UInt 1),
    ("repetition-a", FieldData.UInt 0)], "", [0], 1⟩

/-- Second instance of job b, depending on the replaced instance id 1. -/
def instRepB2 : JobInstance :=
  ⟨some 3, "pb ", [("repetition-b", FieldData.UInt 0), ("p", FieldData.UInt 2),
    ("repetition-a", FieldData.UInt 0)], "", [1], 1⟩

/-- Final planner state of expReplace: six ids consumed, four instances kept. -/
def stRep : PlanState := ⟨6, [("a", [instRepA1, instRepA2]), ("b", [instRepB1, instRepB2])]⟩

/-- The flat plan output of expReplace. -/
def planRepOut : List JobInstance := [instRepA1, instRepA2, instRepB1, instRepB2]

/-! Lemmas about the association-list model of HashMap. -/

theorem lookupA_nil {α : Type} (k : String) : lookupA ([] : List (String × α)) k = none := rfl

theorem lookupA_cons {α : Type} (k1 : String) (v1 : α) (rest : List (String × α)) (k : String) :
    lookupA ((k1, v1) :: rest) k = if k1 = k then some v1 else lookupA rest k := by
  by_cases h : k1 = k
  · simp [lookupA, List.find?_cons_of_pos, h]
  · simp [lookupA, List.find?_cons_of_neg, h]

theorem countKey_nil {α : Type} (k : String) : countKey ([] : List (String × α)) k = 0 := rfl

theorem countKey_cons {α : Type} (k1 : String) (v1 : α) (rest : List (String × α)) (k : String) :
    countKey ((k1, v1) :: rest) k = countKey rest k + if k1 = k then 1 else 0 := by
  simp [countKey, List.countP_cons]

theorem lookupA_insertA_self {α : Type} (m : List (String × α)) (k : String) (v : α) :
    lookupA (insertA m k v) k = some v := by
  induction m with
  | nil => simp [insertA, lookupA_cons]
  | cons e rest ih =>
    obtain ⟨k1, v1⟩ := e
    by_cases h : k1 = k
    · simp [insertA, h, lookupA_cons]
    · simp [insertA, h, lookupA_cons, ih]

theorem lookupA_insertA_ne {α : Type} (m : List (String × α)) (k k1 : String) (v : α)
    (hne : k1 ≠ k) : lookupA (insertA m k v) k1 = lookupA m k1 := by
  have hne2 : k ≠ k1 := Ne.symm hne
  induction m with
  | nil => simp [insertA, lookupA_cons, hne2, lookupA_nil]
  | cons e rest ih =>
    obtain ⟨k2, v2⟩ := e
    by_cases h : k2 = k
    · subst h
      simp [insertA, lookupA_cons, hne2]
    · simp [insertA, h, lookupA_cons, ih]

theorem lookupA_mem {α : Type} {m : List (String × α)} {k : String} {v : α} :
    lookupA m k = some v → (k, v) ∈ m := by
  induction m with
  | nil => simp [lookupA_nil]
  | cons e rest ih =>
    obtain ⟨k1, v1⟩ := e
    by_cases hk : k1 = k
    · subst hk
      rw [lookupA_cons, if_pos rfl]
      intro h
      simp only [Option.some_inj] at h
      simp [h]
    · rw [lookupA_cons, if_neg hk]
      intro h
      exact List.mem_cons_of_mem _ (ih h)

theorem lookupA_eq_none_iff {α : Type} (m : List (String × α)) (k : String) :
    lookupA m k = none ↔ k ∉ m.map (fun e => e.1) := by
  induction m with
  | nil => simp [lookupA_nil]
  | cons e rest ih =>
    obtain ⟨k1, v1⟩ := e
    by_cases hk : k1 = k
    · subst hk
      simp [lookupA_cons]
    · have : ¬k = k1 := fun h => hk h.symm
      simp [lookupA_cons, hk, this, ih]

theorem lookupA_isSome_of_mem {α : Type} {m : List (String × α)} {k : String}
    (h : k ∈ m.map (fun e => e.1)) : ∃ v, lookupA m k = some v := by
  rcases hv : lookupA m k with _ | v
  · exact absurd ((lookupA_eq_none_iff m k).mp hv) (by simp [h])
  · exact ⟨v, rfl⟩

theorem countKey_pos_iff {α : Type} (m : List (String × α)) (k : String) :
    0 < countKey m k ↔ k ∈ m.map (fun e => e.1) := by
  simp only [countKey, List.countP_pos_iff, List.mem_map]
  constructor
  · rintro ⟨e, he, hp⟩
    exact ⟨e, he, by simpa using hp⟩
  · rintro ⟨e, he, hp⟩
    exact ⟨e, he, by simpa using hp⟩

theorem countKey_insertA_pos {α : Type} (m : List (String × α)) (k k1 : String) (v : α) :
    0 < countKey m k → countKey (insertA m k v) k1 = countKey m k1 := by
  induction m with
  | nil => simp [countKey_nil]
  | cons e rest ih =>
    obtain ⟨k2, v2⟩ := e
    intro h
    by_cases hk : k2 = k
    · subst hk
      simp [insertA, countKey_cons]
    · have h2 : 0 < countKey rest k := by
        simpa [countKey_cons, hk] using h
      simp [insertA, hk, countKey_cons, ih h2]

theorem countKey_insertA_zero {α : Type} (m : List (String × α)) (k k1 : String) (v : α) :
    countKey m k = 0 →
    countKey (insertA m k v) k1 = countKey m k1 + if k1 = k then 1 else 0 := by
  induction m with
  | nil =>
    intro _
    by_cases hk : k1 = k
    · simp [insertA, countKey_cons, countKey_nil, hk]
    · have : ¬k = k1 := fun h => hk h.symm
      simp [insertA, countKey_cons, countKey_nil, hk, this]
  | cons e rest ih =>
    obtain ⟨k2, v2⟩ := e
    intro h
    by_cases hk : k2 = k
    · subst hk
      simp [countKey_cons] at h
    · have h2 : countKey rest k = 0 := by
        simpa [countKey_cons, hk] using h
      have := ih h2
      simp only [insertA, hk, if_false, countKey_cons] at this ⊢
      omega

theorem keys_insertA {α : Type} (m : List (String × α)) (k : String) (v : α) :
    (insertA m k v).map (fun e => e.1) =
      if k ∈ m.map (fun e => e.1) then m.map (fun e => e.1)
      else m.map (fun e => e.1) ++ [k] := by
  induction m with
  | nil => simp [insertA]
  | cons e rest ih =>
    obtain ⟨k1, v1⟩ := e
    by_cases hk : k1 = k
    · subst hk
      simp [insertA]
    · have hk2 : ¬k = k1 := fun h => hk h.symm
      by_cases hmem : k ∈ rest.map (fun e => e.1)
      · simp [insertA, hk, ih, hmem, hk2]
      · simp [insertA, hk, ih, hmem, hk2]

theorem mem_insertA {α : Type} {m : List (String × α)} {k : String} {v : α} {e : String × α} :
    (m.map (fun x => x.1)).Nodup → e ∈ insertA m k v →
    e = (k, v) ∨ (e ∈ m ∧ e.1 ≠ k) := by
  induction m with
  | nil =>
    intro _ he
    simp [insertA] at he
    simp [he]
  | cons x rest ih =>
    obtain ⟨k1, v1⟩ := x
    intro hnd he
    simp only [List.map_cons, List.nodup_cons] at hnd
    by_cases hk : k1 = k
    · subst hk
      rw [insertA, if_pos rfl] at he
      rw [List.mem_cons] at he
      rcases he with he | he
      · exact Or.inl he
      · refine Or.inr ⟨List.mem_cons_of_mem _ he, ?_⟩
        intro hek
        exact hnd.1 (by simpa [hek] using List.mem_map_of_mem (fun x => x.1) he)
    · rw [insertA, if_neg hk] at he
      rw [List.mem_cons] at he
      rcases he with he | he
      · exact Or.inr ⟨by simp [he], by simp [he, hk]⟩
      · rcases ih hnd.2 he with h | ⟨h1, h2⟩
        · exact Or.inl h
        · exact Or.inr ⟨List.mem_cons_of_mem _ h1, h2⟩

theorem extendA_nil {α : Type} (p : List (String × α)) : extendA p [] = p := rfl

theorem extendA_cons {α : Type} (p : List (String × α)) (e : String × α)
    (q : List (String × α)) : extendA p (e :: q) = extendA (insertA p e.1 e.2) q := rfl

theorem lookupA_extendA_notin {α : Type} (q : List (String × α)) :
    ∀ (p : List (String × α)) (k : String), k ∉ q.map (fun e => e.1) →
    lookupA (extendA p q) k = lookupA p k := by
  induction q with
  | nil => intro p k _; rfl
  | cons e rest ih =>
    intro p k hk
    obtain ⟨k1, v1⟩ := e
    simp only [List.map_cons, List.mem_cons] at hk
    push_neg at hk
    rw [extendA_cons, ih _ _ hk.2]
    exact lookupA_insertA_ne _ _ _ _ hk.1

theorem lookupA_extendA_mem {α : Type} (q : List (String × α)) :
    ∀ (p : List (String × α)) (k : String) (v : α),
    (q.map (fun e => e.1)).Nodup → lookupA q k = some v →
    lookupA (extendA p q) k = some v := by
  induction q with
  | nil => intro p k v _ h; simp [lookupA_nil] at h
  | cons e rest ih =>
    intro p k v hnd h
    obtain ⟨k1, v1⟩ := e
    simp only [List.map_cons, List.nodup_cons] at hnd
    by_cases hk : k1 = k
    · subst hk
      rw [lookupA_cons, if_pos rfl] at h
      simp only [Option.some_inj] at h
      subst h
      rw [extendA_cons, lookupA_extendA_notin _ _ _ hnd.1]
      exact lookupA_insertA_self _ _ _
    · rw [lookupA_cons, if_neg hk] at h
      rw [extendA_cons]
      exact ih _ _ _ hnd.2 h

theorem lookupA_map_const {α β : Type} (q : List (String × α)) (c : β) (k : String)
    (h : k ∈ q.map (fun e => e.1)) :
    lookupA (q.map (fun e => (e.1, c))) k = some c := by
  induction q with
  | nil => simp at h
  | cons e rest ih =>
    obtain ⟨k1, v1⟩ := e
    by_cases hk : k1 = k
    · subst hk
      simp [lookupA_cons]
    · simp only [List.map_cons, List.mem_cons] at h
      rcases h with h | h
      · exact absurd h.symm hk
      · simpa [lookupA_cons, hk] using ih h

/-! Lemmas about RunRes and batch expansion. -/

theorem RunRes.bind_eq_ok {α β : Type} {r : RunRes α} {f : α → RunRes β} {b : β}
    (h : r.bind f = .ok b) : ∃ a, r = .ok a ∧ f a = .ok b := by
  cases r with
  | ok a => exact ⟨a, rfl, h⟩
  | panic => simp [RunRes.bind] at h
  | diverge => simp [RunRes.bind] at h

theorem RunRes.map_eq_ok {α β : Type} {r : RunRes α} {f : α → β} {b : β}
    (h : r.map f = .ok b) : ∃ a, r = .ok a ∧ f a = b := by
  cases r with
  | ok a =>
    refine ⟨a, rfl, ?_⟩
    simpa [RunRes.map] using h
  | panic => simp [RunRes.map] at h
  | diverge => simp [RunRes.map] at h

theorem mapRR_ok {α β : Type} (f : α → RunRes β) :
    ∀ (l : List α) (l2 : List β), mapRR f l = .ok l2 →
      l2.length = l.length ∧ ∀ i, (h1 : i < l.length) → (h2 : i < l2.length) →
        f l[i] = .ok l2[i] := by
  intro l
  induction l with
  | nil =>
    intro l2 h
    simp only [mapRR] at h
    cases h
    simp
  | cons a tl ih =>
    intro l2 h
    simp only [mapRR] at h
    obtain ⟨b, hb, h2⟩ := RunRes.bind_eq_ok h
    obtain ⟨bs, hbs, h3⟩ := RunRes.map_eq_ok h2
    subst h3
    obtain ⟨hlen, hidx⟩ := ih bs hbs
    refine ⟨by simp [hlen], ?_⟩
    intro i h1 h2
    cases i with
    | zero => simpa using hb
    | succ n =>
      have hn1 : n < tl.length := by simpa using h1
      have hn2 : n < bs.length := by simpa using h2
      simpa using hidx n hn1 hn2

theorem mapRR_ok_mem {α β : Type} {f : α → RunRes β} :
    ∀ {l : List α} {l2 : List β}, mapRR f l = .ok l2 → ∀ b ∈ l2, ∃ a ∈ l, f a = .ok b := by
  intro l
  induction l with
  | nil =>
    intro l2 h
    simp only [mapRR] at h
    cases h
    simp
  | cons a tl ih =>
    intro l2 h b hb
    simp only [mapRR] at h
    obtain ⟨b0, hb0, h2⟩ := RunRes.bind_eq_ok h
    obtain ⟨bs, hbs, h3⟩ := RunRes.map_eq_ok h2
    subst h3
    rcases List.mem_cons.mp hb with hb | hb
    · exact ⟨a, List.mem_cons_self _ _, by simp [hb, hb0]⟩
    · obtain ⟨a1, ha1, hfa⟩ := ih hbs b hb
      exact ⟨a1, List.mem_cons_of_mem _ ha1, hfa⟩

theorem flatten_length_const {α : Type} (n : Nat) :
    ∀ (L : List (List α)), (∀ x ∈ L, x.length = n) → L.flatten.length = L.length * n := by
  intro L
  induction L with
  | nil => simp
  | cons x tl ih =>
    intro h
    simp only [List.flatten_cons, List.length_append, List.length_cons]
    rw [ih (fun y hy => h y (List.mem_cons_of_mem _ hy)), h x (List.mem_cons_self _ _)]
    ring

theorem length_flatMapA {α β : Type} (l : List α) (f : α → List β) :
    (l.flatMap f).length = (l.map (fun a => (f a).length)).sum := by
  induction l with
  | nil => simp
  | cons a tl ih => simp [List.flatMap_cons, ih]

theorem sum_map_constA {α : Type} (l : List α) (n : Nat) :
    (l.map (fun _ => n)).sum = l.length * n := by
  induction l with
  | nil => simp
  | cons a tl ih =>
    simp only [List.map_cons, List.sum_cons, ih, List.length_cons]
    ring

theorem prodMaps_length : ∀ (l : List (String × FieldList)),
    (prodMaps l).length = (l.map (fun e => e.2.length)).prod := by
  intro l
  induction l with
  | nil => simp [prodMaps]
  | cons e rest ih =>
    obtain ⟨key, vals⟩ := e
    simp only [prodMaps, List.map_cons, List.prod_cons]
    rw [length_flatMapA]
    have : ((prodMaps rest).map fun p => ((vals.map fun d => insertA p key d)).length)
        = (prodMaps rest).map (fun _ => vals.length) := by
      simp
    rw [this, sum_map_constA, ih]
    ring

theorem prodMaps_countKey : ∀ (l : List (String × FieldList)) (p : Params), p ∈ prodMaps l →
    ∀ k, countKey p k = if k ∈ l.map (fun e => e.1) then 1 else 0 := by
  intro l
  induction l with
  | nil =>
    intro p hp k
    simp only [prodMaps, List.mem_singleton] at hp
    subst hp
    simp [countKey_nil]
  | cons e rest ih =>
    obtain ⟨key, vals⟩ := e
    intro p hp k
    simp only [prodMaps, List.mem_flatMap, List.mem_map] at hp
    obtain ⟨q, hq, d, _, rfl⟩ := hp
    have hq2 := ih q hq
    by_cases hkey : key ∈ rest.map (fun e => e.1)
    · have hpos : 0 < countKey q key := by
        rw [hq2 key]
        simp [hkey]
      rw [countKey_insertA_pos _ _ _ _ hpos, hq2 k]
      by_cases hk : k = key
      · subst hk
        simp [hkey]
      · by_cases hmem : k ∈ rest.map (fun e => e.1)
        · simp [hmem, List.mem_cons]
        · simp [hmem, List.mem_cons, hk]
    · have hzero : countKey q key = 0 := by
        rw [hq2 key]
        simp [hkey]
      rw [countKey_insertA_zero _ _ _ _ hzero, hq2 k]
      by_cases hk : k = key
      · subst hk
        simp [hkey]
      · by_cases hmem : k ∈ rest.map (fun e => e.1)
        · simp [hmem, List.mem_cons, hk]
        · simp [hmem, List.mem_cons, hk]

theorem vectorizeAll_keys : ∀ (fuel : Nat) (ps : List (String × FieldSetting))
    (psets : List (String × FieldList)), vectorizeAll fuel ps = .ok psets →
    psets.map (fun e => e.1) = ps.map (fun e => e.1) := by
  intro fuel ps
  induction ps with
  | nil =>
    intro psets h
    simp only [vectorizeAll] at h
    cases h
    simp
  | cons e rest ih =>
    obtain ⟨k, st⟩ := e
    intro psets h
    simp only [vectorizeAll] at h
    obtain ⟨vs, _, h2⟩ := RunRes.bind_eq_ok h
    obtain ⟨tl, htl, h3⟩ := RunRes.map_eq_ok h2
    subst h3
    simp [ih tl htl]

theorem batch_eq_ok {fuel : Nat} {j : Job} {psets : List (String × FieldList)}
    (hvec : vectorizeAll fuel j.parameters = .ok psets) :
    j.batch fuel = .ok (batchAssign j.run (j.repetitions.getD 1) (prodMaps psets)) := by
  simp [Job.batch, hvec, RunRes.map]

theorem batchAssign_length (run : String) (reps : Nat) (res : List Params) :
    (batchAssign run reps res).length = reps * res.length := by
  simp [batchAssign]

theorem batchAssign_getElem (run : String) (reps : Nat) (res : List Params)
    (i : Nat) (hi : i < (batchAssign run reps res).length) :
    (batchAssign run reps res)[i] =
      insertA (res.getD (i % res.length) []) ("repetition-" ++ run)
        (FieldData.UInt (i / res.length)) := by
  simp [batchAssign]

theorem batchAssign_mem (run : String) (reps : Nat) (res : List Params)
    (p : Params) (hp : p ∈ batchAssign run reps res) :
    ∃ q ∈ res, ∃ v, p = insertA q ("repetition-" ++ run) v := by
  simp only [batchAssign, List.mem_map, List.mem_range] at hp
  obtain ⟨i, hi, rfl⟩ := hp
  have hres : res ≠ [] := by
    intro h
    rw [h] at hi
    simp at hi
  have hlt : i % res.length < res.length :=
    Nat.mod_lt _ (List.length_pos.mpr hres)
  refine ⟨res[i % res.length], List.getElem_mem _, FieldData.UInt (i / res.length), ?_⟩
  rw [List.getD_eq_getElem res [] hlt]

/-- Claim C2: for a job whose parameter settings vectorize to value lists
with cardinality product R and repetitions r (default 1), Job::batch
returns exactly r * R concrete parameter maps, each carrying exactly one
entry per declared field name, and the map at 0-indexed position i
additionally carries the synthetic repetition key bound to UInt (i / R),
so every assignment of replicate block b carries UInt b. -/
theorem c2_batch_size_and_repetition (j : Job) (fuel : Nat)
    (psets : List (String × FieldList))
    (hvec : vectorizeAll fuel j.parameters = .ok psets) :
    ∃ l, j.batch fuel = .ok l ∧
      l.length = (j.repetitions.getD 1) * (psets.map (fun e => e.2.length)).prod ∧
      (∀ i, (hi : i < l.length) →
        lookupA l[i] ("repetition-" ++ j.run) =
          some (FieldData.UInt (i / (psets.map (fun e => e.2.length)).prod))) ∧
      (∀ p ∈ l, ∀ k ∈ j.parameters.map (fun e => e.1), countKey p k = 1) := by
  refine ⟨batchAssign j.run (j.repetitions.getD 1) (prodMaps psets), batch_eq_ok hvec,
    ?_, ?_, ?_⟩
  · rw [batchAssign_length, prodMaps_length]
  · intro i hi
    rw [batchAssign_getElem _ _ _ _ hi, prodMaps_length, lookupA_insertA_self]
  · intro p hp k hk
    obtain ⟨q, hq, v, rfl⟩ := batchAssign_mem _ _ _ _ hp
    have hk2 : k ∈ psets.map (fun e => e.1) := by
      rw [vectorizeAll_keys fuel j.parameters psets hvec]
      exact hk
    have hkq : countKey q k = 1 := by
      rw [prodMaps_countKey psets q hq k]
      simp [hk2]
    rcases Nat.eq_zero_or_pos (countKey q ("repetition-" ++ j.run)) with hz | hp2
    · rw [countKey_insertA_zero _ _ _ _ hz]
      have hne : k ≠ "repetition-" ++ j.run := by
        intro h
        rw [h] at hkq
        omega
      simp [hne, hkq]
    · rw [countKey_insertA_pos _ _ _ _ hp2]
      exact hkq

/-- Witness for C2 at a job with cardinalities 3 and 2 and two
repetitions. -/
theorem c2_batch_size_and_repetition_witness :
    vectorizeAll 0 jobDemoC.parameters = .ok psetsDemo ∧
    (∃ l, jobDemoC.batch 0 = .ok l ∧
      l.length = (jobDemoC.repetitions.getD 1) * (psetsDemo.map (fun e => e.2.length)).prod ∧
      (∀ i, (hi : i < l.length) →
        lookupA l[i] ("repetition-" ++ jobDemoC.run) =
          some (FieldData.UInt (i / (psetsDemo.map (fun e => e.2.length)).prod))) ∧
      (∀ p ∈ l, ∀ k ∈ jobDemoC.parameters.map (fun e => e.1), countKey p k = 1)) :=
  ⟨rfl, c2_batch_size_and_repetition jobDemoC 0 psetsDemo rfl⟩

/-- Claim C3 counterexample: the claim states that Path accepts Future,
but FieldType::matches accepts Future for Str only, so the pair (Path,
Future) is rejected. -/
theorem c3_counterexample : FieldType.Path.matches FieldData.Future = false := by decide

/-- Claim C3 (amended): matches returns true exactly on Str or Path with
Str data, UInt with UInt data, UInt with integral Float data, Float with
Float data, Bool with Bool data, and Str (only, not Path) with Future;
including the integral-float edge case that Float 4 matches UInt while
Float 4.5 does not. -/
theorem c3_matches_truth_table :
    (∀ (t : FieldType) (d : FieldData),
      t.matches d = true ↔
        ((t = .Str ∨ t = .Path) ∧ (∃ s, d = .Str s)) ∨
        (t = .UInt ∧ (∃ n, d = .UInt n)) ∨
        (t = .UInt ∧ (∃ q, d = .Float q ∧ q.den = 1)) ∨
        (t = .Float ∧ (∃ q, d = .Float q)) ∨
        (t = .Bool ∧ (∃ b, d = .Bool b)) ∨
        (t = .Str ∧ d = .Future)) ∧
    FieldType.UInt.matches (.Float (mkRat 4 1)) = true ∧
    FieldType.UInt.matches (.Float (mkRat 9 2)) = false := by
  refine ⟨?_, by decide, by decide⟩
  intro t d
  cases t <;> cases d <;> simp [FieldType.matches]

/-- The loop of validate_parameters succeeds exactly when every remaining
declared field is either optional or present with a matching setting. -/
theorem vpGo_ok_iff (pname : String) (params : List (String × FieldSetting)) :
    ∀ fields, (vpGo pname params fields = .ok () ↔
      ∀ e ∈ fields, (lookupA params e.1 = none → e.2.option.isSome = true) ∧
        (∀ st, lookupA params e.1 = some st → e.2.dtype.matches_setting st = true)) := by
  intro fields
  induction fields with
  | nil => simp [vpGo]
  | cons e rest ih =>
    obtain ⟨field, details⟩ := e
    rcases hl : lookupA params field with _ | st
    · rcases hopt : details.option with _ | opt
      · simp only [vpGo, hl, hopt]
        constructor
        · intro h
          cases h
        · intro h
          have := (h (field, details) (List.mem_cons_self _ _)).1 hl
          simp [hopt] at this
      · simp only [vpGo, hl, hopt, ih]
        constructor
        · intro h
          refine fun e he => ?_
          rcases List.mem_cons.mp he with rfl | he
          · refine ⟨fun _ => by simp [hopt], fun st hst => ?_⟩
            rw [hl] at hst
            cases hst
          · exact h e he
        · intro h e he
          exact h e (List.mem_cons_of_mem _ he)
    · by_cases hm : details.dtype.matches_setting st = true
      · simp only [vpGo, hl]
        rw [if_pos hm, ih]
        constructor
        · intro h e he
          rcases List.mem_cons.mp he with rfl | he
          · refine ⟨fun hn => ?_, fun st2 hst2 => ?_⟩
            · rw [hl] at hn
              cases hn
            · rw [hl] at hst2
              cases hst2
              exact hm
          · exact h e he
        · intro h e he
          exact h e (List.mem_cons_of_mem _ he)
      · simp only [vpGo, hl]
        rw [if_neg hm]
        constructor
        · intro h
          cases h
        · intro h
          have := (h (field, details) (List.mem_cons_self _ _)).2 st hl
          exact absurd this hm

/-- The loop of validate_parameters fails only with MissingParameter for
an absent required field or InvalidParameterSetting for a present but
mismatched setting. -/
theorem vpGo_error (pname : String) (params : List (String × FieldSetting)) :
    ∀ fields err, vpGo pname params fields = .error err →
      (∃ e ∈ fields, lookupA params e.1 = none ∧ e.2.option = none ∧
        err = .MissingParameter e.1 pname) ∨
      (∃ e ∈ fields, ∃ st, lookupA params e.1 = some st ∧
        e.2.dtype.matches_setting st = false ∧
        err = .InvalidParameterSetting e.1 st e.2.dtype) := by
  intro fields
  induction fields with
  | nil =>
    intro err h
    simp [vpGo] at h
  | cons e rest ih =>
    obtain ⟨field, details⟩ := e
    intro err h
    rcases hl : lookupA params field with _ | st
    · rcases hopt : details.option with _ | opt
      · simp only [vpGo, hl, hopt, Except.error.injEq] at h
        exact Or.inl ⟨(field, details), List.mem_cons_self _ _, hl, hopt, h.symm⟩
      · simp only [vpGo, hl, hopt] at h
        rcases ih err h with ⟨e, he, h1⟩ | ⟨e, he, h1⟩
        · exact Or.inl ⟨e, List.mem_cons_of_mem _ he, h1⟩
        · exact Or.inr ⟨e, List.mem_cons_of_mem _ he, h1⟩
    · by_cases hm : details.dtype.matches_setting st = true
      · simp only [vpGo, hl] at h
        rw [if_pos hm] at h
        rcases ih err h with ⟨e, he, h1⟩ | ⟨e, he, h1⟩
        · exact Or.inl ⟨e, List.mem_cons_of_mem _ he, h1⟩
        · exact Or.inr ⟨e, List.mem_cons_of_mem _ he, h1⟩
      · simp only [vpGo, hl] at h
        rw [if_neg hm] at h
        simp only [Except.error.injEq] at h
        refine Or.inr ⟨(field, details), List.mem_cons_self _ _, st, hl, ?_, h.symm⟩
        simpa using hm

/-- Claim C4: validate_parameters returns Ok exactly when every declared
field without an option template is present and every present field's
setting satisfies the field type, and on failure the error is
MissingParameter for an absent required field or InvalidParameterSetting
for a present but mismatched one; a field with an option template is
never required. -/
theorem c4_validate_parameters_spec :
    ∀ (prog : Program) (params : List (String × FieldSetting)),
    (prog.validate_parameters params = .ok () ↔
      ∀ e ∈ prog.fields, (lookupA params e.1 = none → e.2.option.isSome = true) ∧
        (∀ st, lookupA params e.1 = some st → e.2.dtype.matches_setting st = true)) ∧
    (∀ err, prog.validate_parameters params = .error err →
      (∃ e ∈ prog.fields, lookupA params e.1 = none ∧ e.2.option = none ∧
        err = .MissingParameter e.1 prog.name) ∨
      (∃ e ∈ prog.fields, ∃ st, lookupA params e.1 = some st ∧
        e.2.dtype.matches_setting st = false ∧
        err = .InvalidParameterSetting e.1 st e.2.dtype)) := by
  intro prog params
  exact ⟨vpGo_ok_iff prog.name params prog.fields,
    fun err => vpGo_error prog.name params prog.fields err⟩

theorem expandGo_no_dollar (matched : List Char) :
    ∀ (fuel : Nat) (rep : List Char), (∀ c ∈ rep, c ≠ '$') →
      expandGo matched fuel rep = rep := by
  intro fuel
  induction fuel with
  | zero =>
    intro rep _
    cases rep with
    | nil => rfl
    | cons c rest => rfl
  | succ fuel ih =>
    intro rep h
    cases rep with
    | nil => rfl
    | cons c rest =>
      have hc : c ≠ '$' := h c (List.mem_cons_self _ _)
      rw [expandGo.eq_def]
      simp only []
      rw [if_neg hc, ih rest (fun x hx => h x (List.mem_cons_of_mem _ hx))]

theorem expandRepl_no_dollar (matched rep : List Char) (h : ∀ c ∈ rep, c ≠ '$') :
    expandRepl matched rep = rep :=
  expandGo_no_dollar matched rep.length rep h

/-- Claim C5 counterexample: with an option template holding a
placeholder, the datum string is not spliced verbatim — Regex::replace
with a string replacement expands dollar references against the match,
so the Str datum whose text is a dollar-zero reference renders the
matched placeholder text, not the plain string form the claim requires. -/
theorem c5_counterexample :
    Field.fill_with ⟨.Str, [], some "--x <v>", .None⟩ (.Str "$0") = .ok "--x <v>" ∧
    Field.fill_with ⟨.Str, [], some "--x <v>", .None⟩ (.Str "$0") ≠ .ok "--x $0" :=
  ⟨by decide, by decide⟩

/-- Claim C5 (amended): fill_with re-checks the type and fails with
FieldMismatch exactly on mismatch; without an option template it returns
the plain string form of the datum; with an option template it returns
the empty string for Bool false, the template verbatim for Bool true,
and otherwise the template with its first non-greedy angle-bracket
placeholder replaced by the regex dollar-expansion of the plain string
form — which is that plain string form verbatim whenever it contains no
dollar sign, as in the delta example; a double dollar renders one
literal dollar and a reference to a nonexistent capture group renders
the empty string. -/
theorem c5_fill_with_amended :
    (∀ (fld : Field) (datum : FieldData),
      (fld.dtype.matches datum = false →
        fld.fill_with datum = .error (.FieldMismatch fld.dtype datum)) ∧
      (fld.dtype.matches datum = true → fld.option = none →
        fld.fill_with datum = .ok datum.to_string) ∧
      (∀ opt, fld.dtype.matches datum = true → fld.option = some opt →
        (datum = .Bool false → fld.fill_with datum = .ok "") ∧
        (datum = .Bool true → fld.fill_with datum = .ok opt) ∧
        ((∀ b, datum ≠ .Bool b) →
          fld.fill_with datum = .ok (String.mk (replacePH datum.to_string.data opt.data))))) ∧
    (∀ matched rep, (∀ c ∈ rep, c ≠ '$') → expandRepl matched rep = rep) ∧
    (∀ str, FieldData.to_string (.Str str) = str) ∧
    FieldData.to_string (.UInt 42) = "42" ∧
    FieldData.to_string (.Float (mkRat 1 2)) = "0.5" ∧
    FieldData.to_string (.Bool true) = "true" ∧
    FieldData.to_string (.Bool false) = "false" ∧
    FieldData.to_string .Future = "" ∧
    Field.fill_with ⟨.Float, [], some "--delta <delta>", .None⟩ (.Float (mkRat 1 2)) =
      .ok "--delta 0.5" ∧
    Field.fill_with ⟨.Bool, [], some "--flag", .None⟩ (.Bool true) = .ok "--flag" ∧
    Field.fill_with ⟨.Bool, [], some "--flag", .None⟩ (.Bool false) = .ok "" ∧
    Field.fill_with ⟨.Str, [], some "--y <v>", .None⟩ (.Str "$$") = .ok "--y $" ∧
    Field.fill_with ⟨.Str, [], some "--y <v>", .None⟩ (.Str "$1") = .ok "--y " := by
  refine ⟨?_, fun matched rep h => expandRepl_no_dollar matched rep h, fun str => rfl,
    by decide, by decide, by decide, by decide, by decide, rfl, rfl, rfl, rfl, rfl⟩
  intro fld datum
  refine ⟨?_, ?_, ?_⟩
  · intro h
    simp [Field.fill_with, Field.matches, h]
  · intro h hopt
    simp [Field.fill_with, Field.matches, h, hopt]
  · intro opt h hopt
    refine ⟨?_, ?_, ?_⟩
    · intro hd
      subst hd
      simp [Field.fill_with, Field.matches, h, hopt]
    · intro hd
      subst hd
      simp [Field.fill_with, Field.matches, h, hopt]
    · intro hb
      cases datum with
      | Bool b => exact absurd rfl (hb b)
      | Future => simp [Field.fill_with, Field.matches, h, hopt]
      | Str s2 => simp [Field.fill_with, Field.matches, h, hopt]
      | Float q => simp [Field.fill_with, Field.matches, h, hopt]
      | UInt n => simp [Field.fill_with, Field.matches, h, hopt]

/-! Lemmas about the UInt range loop. -/

theorem USIZE_pos : 0 < USIZE := by decide

theorem numIters_step (e s cur : Nat) (hs : 1 ≤ s) (h : cur ≤ e) :
    numIters e s cur = numIters e s (cur + s) + 1 := by
  by_cases h2 : cur + s ≤ e
  · have h3 : e - (cur + s) = e - cur - s := by omega
    have h4 : s ≤ e - cur := by omega
    rw [numIters, numIters, if_pos h, if_pos h2, h3,
      Nat.div_eq_sub_div (by omega) h4]
  · rw [numIters, numIters, if_pos h, if_neg h2, Nat.div_eq_of_lt (by omega)]

theorem rangeClosed_step (e s cur : Nat) (hs : 1 ≤ s) (h : cur ≤ e) :
    rangeClosed e s cur = cur :: rangeClosed e s (cur + s) := by
  rw [rangeClosed, rangeClosed, numIters_step e s cur hs h]
  have harith : ∀ i : Nat, cur + (i + 1) * s = (cur + s) + i * s := by
    intro i
    ring
  simp [List.range_succ_eq_map, List.map_map, Function.comp, harith]

theorem rangeLoopU_ok_of_fuel (e s : Nat) (hs : 1 ≤ s) (hov : e + s < USIZE) :
    ∀ (fuel cur : Nat), numIters e s cur < fuel →
      rangeLoopU e s fuel cur = .ok (rangeClosed e s cur) := by
  intro fuel
  induction fuel with
  | zero => intro cur h; omega
  | succ fuel ih =>
    intro cur h
    by_cases hc : cur ≤ e
    · have h2 : numIters e s (cur + s) < fuel := by
        have := numIters_step e s cur hs hc
        omega
      rw [rangeLoopU, if_pos hc, Nat.mod_eq_of_lt (by omega), ih _ h2,
        rangeClosed_step e s cur hs hc]
    · rw [rangeLoopU, if_neg hc, rangeClosed, numIters, if_neg hc]
      simp

theorem rangeLoopU_ok_unique (e s : Nat) (hs : 1 ≤ s) (hov : e + s < USIZE) :
    ∀ (fuel cur : Nat) (l : List Nat), rangeLoopU e s fuel cur = .ok l →
      l = rangeClosed e s cur := by
  intro fuel
  induction fuel with
  | zero => intro cur l h; cases h
  | succ fuel ih =>
    intro cur l h
    by_cases hc : cur ≤ e
    · rw [rangeLoopU, if_pos hc, Nat.mod_eq_of_lt (by omega)] at h
      cases hrec : rangeLoopU e s fuel (cur + s) with
      | ok l2 =>
        rw [hrec] at h
        cases h
        rw [rangeClosed_step e s cur hs hc, ih _ _ hrec]
      | panic => rw [hrec] at h; cases h
      | diverge => rw [hrec] at h; cases h
    · rw [rangeLoopU, if_neg hc] at h
      cases h
      rw [rangeClosed, numIters, if_neg hc]
      simp

theorem mem_rangeClosed (e s cur : Nat) (hs : 1 ≤ s) (x : Nat) :
    x ∈ rangeClosed e s cur ↔ ∃ k, x = cur + k * s ∧ x ≤ e := by
  simp only [rangeClosed, List.mem_map, List.mem_range]
  constructor
  · rintro ⟨i, hi, rfl⟩
    refine ⟨i, rfl, ?_⟩
    rw [numIters] at hi
    by_cases hc : cur ≤ e
    · rw [if_pos hc] at hi
      have h1 : i ≤ (e - cur) / s := by omega
      have h2 := (Nat.le_div_iff_mul_le (by omega)).mp h1
      omega
    · rw [if_neg hc] at hi
      omega
  · rintro ⟨k, rfl, hle⟩
    refine ⟨k, ?_, rfl⟩
    rw [numIters]
    have hc : cur ≤ e := by omega
    rw [if_pos hc]
    have h1 : k * s ≤ e - cur := by omega
    have h2 := (Nat.le_div_iff_mul_le (by omega)).mpr h1
    omega

theorem rangeLoopU_zero_diverge (e : Nat) :
    ∀ (fuel cur : Nat), cur ≤ e → rangeLoopU e 0 fuel cur = .diverge := by
  intro fuel
  induction fuel with
  | zero => intro cur _; rfl
  | succ fuel ih =>
    intro cur h
    rw [rangeLoopU, if_pos h]
    have h2 : (cur + 0) % USIZE ≤ e := le_trans (Nat.mod_le _ _) (by omega)
    rw [ih _ h2]

theorem rangeLoopU_le (e s : Nat) :
    ∀ (fuel cur : Nat) (l : List Nat), rangeLoopU e s fuel cur = .ok l →
      ∀ x ∈ l, x ≤ e := by
  intro fuel
  induction fuel with
  | zero => intro cur l h; cases h
  | succ fuel ih =>
    intro cur l h
    by_cases hc : cur ≤ e
    · rw [rangeLoopU, if_pos hc] at h
      cases hrec : rangeLoopU e s fuel ((cur + s) % USIZE) with
      | ok l2 =>
        rw [hrec] at h
        cases h
        intro x hx
        rcases List.mem_cons.mp hx with rfl | hx
        · exact hc
        · exact ih _ _ hrec x hx
      | panic => rw [hrec] at h; cases h
      | diverge => rw [hrec] at h; cases h
    · rw [rangeLoopU, if_neg hc] at h
      cases h
      intro x hx
      simp at hx

theorem rangeLoopU_max_diverge (s : Nat) :
    ∀ (fuel cur : Nat), cur < USIZE →
      rangeLoopU (USIZE - 1) s fuel cur = .diverge := by
  intro fuel
  induction fuel with
  | zero => intro cur _; rfl
  | succ fuel ih =>
    intro cur hcur
    have hp := USIZE_pos
    rw [rangeLoopU, if_pos (by omega)]
    rw [ih _ (Nat.mod_lt _ hp)]

theorem vectorize_max_diverge (s fuel : Nat) :
    FieldSetting.vectorize fuel
      (.Range (.UInt (USIZE - 1)) (.UInt (USIZE - 1)) (.UInt s)) = .diverge := by
  simp only [FieldSetting.vectorize, FieldData.unwrap_usize, RunRes.bind]
  have hp := USIZE_pos
  rw [rangeLoopU_max_diverge s fuel (USIZE - 1) (by omega)]
  rfl

theorem rangeLoopF_le (addf : Rat → Rat → Rat) (e s : Rat) :
    ∀ (fuel : Nat) (cur : Rat) (l : List Rat),
      rangeLoopF addf e s fuel cur = .ok l → ∀ x ∈ l, x ≤ e := by
  intro fuel
  induction fuel with
  | zero => intro cur l h; cases h
  | succ fuel ih =>
    intro cur l h
    by_cases hc : cur ≤ e
    · rw [rangeLoopF, if_pos hc] at h
      cases hrec : rangeLoopF addf e s fuel (addf cur s) with
      | ok l2 =>
        rw [hrec] at h
        cases h
        intro x hx
        rcases List.mem_cons.mp hx with rfl | hx
        · exact hc
        · exact ih _ _ hrec x hx
      | panic => rw [hrec] at h; cases h
      | diverge => rw [hrec] at h; cases h
    · rw [rangeLoopF, if_neg hc] at h
      cases h
      intro x hx
      simp at hx

/-- Claim C6 counterexample: the claim says the output holds nothing
beyond the arithmetic progression of values at most to, but the wrapping
usize step at Range from UInt 1 to UInt (2^64 - 2) by step UInt
(2^64 - 1) emits the wrapped value 0, which is not of the form
1 + k * step for any k. -/
theorem c6_counterexample :
    FieldSetting.vectorize 3
      (.Range (.UInt 1) (.UInt (USIZE - 2)) (.UInt (USIZE - 1))) =
      .ok [.UInt 1, .UInt 0] ∧
    FieldData.UInt 0 ∈ [FieldData.UInt 1, FieldData.UInt 0] ∧
    ¬ ∃ k, 0 = 1 + k * (USIZE - 1) := by
  refine ⟨by decide, by decide, ?_⟩
  rintro ⟨k, hk⟩
  omega

/-- Claim C6 (amended): vectorize on a Range pushes the running value
while cur is at most to, advancing by the wrapping usize addition on
UInt ranges and by f64 addition on Float ranges, so every emitted value
is at most to; on an all-UInt range whose additions cannot overflow
(to + step below 2^64) the output is exactly the inclusive arithmetic
progression from, from+step, ..., containing every value of that form at
most to and nothing beyond; the range from 0 to 10 by 2 gives exactly
0,2,4,6,8,10, while a wrapping step can leave the progression. -/
theorem c6_range_expansion :
    FieldSetting.vectorize 12 (.Range (.UInt 0) (.UInt 10) (.UInt 2)) =
      .ok [.UInt 0, .UInt 2, .UInt 4, .UInt 6, .UInt 8, .UInt 10] ∧
    (∀ f t s fuel l, 1 ≤ s → t + s < USIZE →
      FieldSetting.vectorize fuel (.Range (.UInt f) (.UInt t) (.UInt s)) = .ok l →
      l = (rangeClosed t s f).map FieldData.UInt ∧
      (∀ x, FieldData.UInt x ∈ l ↔ ∃ k, x = f + k * s ∧ x ≤ t)) ∧
    (∀ f t s fuel l,
      FieldSetting.vectorize fuel (.Range (.UInt f) (.UInt t) (.UInt s)) = .ok l →
      ∀ x, FieldData.UInt x ∈ l → x ≤ t) ∧
    (∀ lo hi st fuel l,
      FieldSetting.vectorize fuel (.Range (.Float lo) (.Float hi) (.Float st)) = .ok l →
      ∀ q, FieldData.Float q ∈ l → q ≤ hi) ∧
    FieldSetting.vectorize 3
      (.Range (.UInt 1) (.UInt (USIZE - 2)) (.UInt (USIZE - 1))) =
      .ok [.UInt 1, .UInt 0] := by
  refine ⟨by decide, ?_, ?_, ?_, by decide⟩
  · intro f t s fuel l hs hov h
    simp only [FieldSetting.vectorize, FieldData.unwrap_usize, RunRes.bind] at h
    obtain ⟨l0, hl0, h2⟩ := RunRes.map_eq_ok h
    rw [rangeLoopU_ok_unique t s hs hov fuel f l0 hl0] at h2
    subst h2
    refine ⟨rfl, ?_⟩
    intro x
    simp only [List.mem_map]
    constructor
    · rintro ⟨y, hy, hxy⟩
      have hyx : y = x := by
        cases hxy
        rfl
      subst hyx
      exact (mem_rangeClosed t s f hs y).mp hy
    · intro hx
      exact ⟨x, (mem_rangeClosed t s f hs x).mpr hx, rfl⟩
  · intro f t s fuel l h x hx
    simp only [FieldSetting.vectorize, FieldData.unwrap_usize, RunRes.bind] at h
    obtain ⟨l0, hl0, h2⟩ := RunRes.map_eq_ok h
    subst h2
    simp only [List.mem_map] at hx
    obtain ⟨y, hy, hxy⟩ := hx
    have hyx : y = x := by
      cases hxy
      rfl
    subst hyx
    exact rangeLoopU_le t s fuel f l0 hl0 y hy
  · intro lo hi st fuel l h q hq
    simp only [FieldSetting.vectorize, FieldData.unwrap_float, RunRes.bind] at h
    obtain ⟨l0, hl0, h2⟩ := RunRes.map_eq_ok h
    subst h2
    simp only [List.mem_map] at hq
    obtain ⟨y, hy, hqy⟩ := hq
    have hyq : y = q := by
      cases hqy
      rfl
    subst hyq
    exact rangeLoopF_le f64Add hi st fuel lo l0 hl0 y hy

/-- Claim C10 counterexample: the claim asserts vectorize terminates
without panicking on every all-UInt Range with step at least 1, yet at
from = to = usize MAX with step 1 the wrapping step keeps the running
value at most to forever, so no fuel makes vectorize return ok. -/
theorem c10_counterexample :
    (1 : Nat) ≤ 1 ∧
    ¬ ∃ fuel l, FieldSetting.vectorize fuel
      (.Range (.UInt (USIZE - 1)) (.UInt (USIZE - 1)) (.UInt 1)) = .ok l := by
  refine ⟨le_refl 1, ?_⟩
  rintro ⟨fuel, l, h⟩
  rw [vectorize_max_diverge 1 fuel] at h
  cases h

/-- Claim C10 (amended): vectorize terminates without panicking on every
all-UInt Range with step at least 1 whose additions cannot overflow
(to + step below 2^64); at the usize boundary the wrapping step keeps
cur at most to forever and vectorize never terminates; the precondition
remains strictly stronger than typechecking, since the UInt-typechecked
Range from UInt 0 to Float 10 by UInt 2 panics in unwrap_usize; and an
all-UInt Range with step 0 and from at most to never terminates. -/
theorem c10_vectorize_termination :
    (∀ f t s, 1 ≤ s → t + s < USIZE → ∃ fuel l,
      FieldSetting.vectorize fuel (.Range (.UInt f) (.UInt t) (.UInt s)) = .ok l) ∧
    (∀ s fuel, FieldSetting.vectorize fuel
      (.Range (.UInt (USIZE - 1)) (.UInt (USIZE - 1)) (.UInt s)) = .diverge) ∧
    (FieldType.UInt.matches_setting
        (.Range (.UInt 0) (.Float (mkRat 10 1)) (.UInt 2)) = true ∧
      ∀ fuel, FieldSetting.vectorize fuel
        (.Range (.UInt 0) (.Float (mkRat 10 1)) (.UInt 2)) = .panic) ∧
    (∀ f t fuel, f ≤ t →
      FieldSetting.vectorize fuel (.Range (.UInt f) (.UInt t) (.UInt 0)) = .diverge) := by
  refine ⟨?_, fun s fuel => vectorize_max_diverge s fuel,
    ⟨by decide, fun fuel => rfl⟩, ?_⟩
  · intro f t s hs hov
    refine ⟨t + 2, (rangeClosed t s f).map FieldData.UInt, ?_⟩
    have hfuel : numIters t s f < t + 2 := by
      rw [numIters]
      split
      · have := Nat.div_le_self (t - f) s
        omega
      · omega
    simp only [FieldSetting.vectorize, FieldData.unwrap_usize, RunRes.bind]
    rw [rangeLoopU_ok_of_fuel t s hs hov (t + 2) f hfuel]
    rfl
  · intro f t fuel hft
    simp only [FieldSetting.vectorize, FieldData.unwrap_usize, RunRes.bind]
    rw [rangeLoopU_zero_diverge t fuel f hft]
    rfl

/-! Lemmas about the planner. -/

theorem jobify_ok {prog : Program} {threads i : Nat} {params : Params} {deps : List Nat}
    {inst : JobInstance} (h : jobify prog threads i params deps = .ok inst) :
    inst.id = some i ∧ inst.params = params ∧ inst.depends = deps ∧
    inst.threads = threads := by
  rw [jobify] at h
  cases hcmd : prog.cmd params with
  | error e => rw [hcmd] at h; cases h
  | ok c =>
    rw [hcmd] at h
    cases h
    exact ⟨rfl, rfl, rfl, rfl⟩

theorem jobifyList_ok (prog : Program) (threads : Nat) :
    ∀ (l : List (Params × List Nat)) (i : Nat) (insts : List JobInstance),
      jobifyList prog threads i l = .ok insts →
      insts.length = l.length ∧ ∀ j, (hj : j < l.length) → (hj2 : j < insts.length) →
        insts[j].id = some (i + j) ∧ insts[j].params = l[j].1 ∧
        insts[j].depends = l[j].2 ∧ insts[j].threads = threads := by
  intro l
  induction l with
  | nil =>
    intro i insts h
    simp only [jobifyList] at h
    cases h
    refine ⟨rfl, ?_⟩
    intro j hj
    simp at hj
  | cons pd rest ih =>
    obtain ⟨p, ds⟩ := pd
    intro i insts h
    simp only [jobifyList] at h
    cases hjb : jobify prog threads i p ds with
    | error e => rw [hjb] at h; cases h
    | ok inst =>
      rw [hjb] at h
      cases hrest : jobifyList prog threads (i + 1) rest with
      | error e => rw [hrest] at h; cases h
      | ok tl =>
        rw [hrest] at h
        cases h
        obtain ⟨hlen, hidx⟩ := ih (i + 1) tl hrest
        obtain ⟨h1, h2, h3, h4⟩ := jobify_ok hjb
        refine ⟨by simp [hlen], ?_⟩
        intro j hj1 hj2
        cases j with
        | zero => simpa using ⟨h1, h2, h3, h4⟩
        | succ n =>
          have hn1 : n < rest.length := by simpa using hj1
          have hn2 : n < tl.length := by simpa using hj2
          have hrec := hidx n hn1 hn2
          have harr : i + (n + 1) = (i + 1) + n := by omega
          simp only [List.getElem_cons_succ]
          rw [harr]
          exact hrec

theorem validateJobifyList_ok (prog : Program) (threads : Nat) :
    ∀ (l : List (Params × List Nat)) (i : Nat) (insts : List JobInstance),
      validateJobifyList prog threads i l = .ok insts →
      insts.length = l.length ∧ ∀ j, (hj : j < l.length) → (hj2 : j < insts.length) →
        insts[j].id = some (i + j) ∧ insts[j].params = l[j].1 ∧
        insts[j].depends = l[j].2 ∧ insts[j].threads = threads := by
  intro l
  induction l with
  | nil =>
    intro i insts h
    simp only [validateJobifyList] at h
    cases h
    refine ⟨rfl, ?_⟩
    intro j hj
    simp at hj
  | cons pd rest ih =>
    obtain ⟨p, ds⟩ := pd
    intro i insts h
    simp only [validateJobifyList] at h
    cases hvp : prog.validate_parameter_data p with
    | error e => rw [hvp] at h; cases h
    | ok u =>
      rw [hvp] at h
      cases hjb : jobify prog threads i p ds with
      | error e => rw [hjb] at h; cases h
      | ok inst =>
        rw [hjb] at h
        cases hrest : validateJobifyList prog threads (i + 1) rest with
        | error e => rw [hrest] at h; cases h
        | ok tl =>
          rw [hrest] at h
          cases h
          obtain ⟨hlen, hidx⟩ := ih (i + 1) tl hrest
          obtain ⟨h1, h2, h3, h4⟩ := jobify_ok hjb
          refine ⟨by simp [hlen], ?_⟩
          intro j hj1 hj2
          cases j with
          | zero => simpa using ⟨h1, h2, h3, h4⟩
          | succ n =>
            have hn1 : n < rest.length := by simpa using hj1
            have hn2 : n < tl.length := by simpa using hj2
            have hrec := hidx n hn1 hn2
            have harr : i + (n + 1) = (i + 1) + n := by omega
            simp only [List.getElem_cons_succ]
            rw [harr]
            exact hrec

theorem mergeDep_ok {dprog : Program} {inst : JobInstance} {pr pd : Params × List Nat}
    (h : mergeDep dprog inst pr = .ok pd) :
    ∃ i, inst.id = some i ∧
      pd.1 = extendA (extendA pr.1 inst.params)
        (dprog.outputs.map (fun e => (e.1, FieldData.Future))) ∧
      pd.2 = pr.2 ++ [i] := by
  cases hid : inst.id with
  | none => rw [mergeDep, hid] at h; cases h
  | some i =>
    rw [mergeDep, hid] at h
    cases h
    exact ⟨i, rfl, rfl, rfl⟩

theorem expandOneDep_ok {dprog : Program} {insts : List JobInstance}
    {cur cur2 : List (Params × List Nat)}
    (h : expandOneDep dprog insts cur = .ok cur2) :
    cur2.length = cur.length * insts.length ∧
    ∀ pd ∈ cur2, ∃ pr ∈ cur, ∃ inst ∈ insts, mergeDep dprog inst pr = .ok pd := by
  rw [expandOneDep] at h
  obtain ⟨L, hL, h2⟩ := RunRes.map_eq_ok h
  subst h2
  constructor
  · have hlenL := (mapRR_ok _ cur L hL).1
    have hconst : ∀ x ∈ L, x.length = insts.length := by
      intro x hx
      obtain ⟨pr, _, hpr⟩ := mapRR_ok_mem hL x hx
      exact (mapRR_ok _ insts x hpr).1
    rw [flatten_length_const insts.length L hconst, hlenL]
  · intro pd hpd
    obtain ⟨x, hx, hpdx⟩ := List.mem_flatten.mp hpd
    obtain ⟨pr, hpr, hprx⟩ := mapRR_ok_mem hL x hx
    obtain ⟨inst, hinst, hmerge⟩ := mapRR_ok_mem hprx pd hpdx
    exact ⟨pr, hpr, inst, hinst, hmerge⟩

theorem expandDeps_ok_depsPresent (progs : List (String × Program))
    (jobmap : List (String × List JobInstance)) (run : String) :
    ∀ (ds : List String) (init cur : List (Params × List Nat)),
      expandDeps progs jobmap run ds init = .ok (.ok cur) →
      ∀ d ∈ ds, ∃ insts, lookupA jobmap d = some insts := by
  intro ds
  induction ds with
  | nil => intro init cur _ d hd; simp at hd
  | cons d0 rest ih =>
    intro init cur h d hd
    cases hlook : lookupA jobmap d0 with
    | none =>
      rw [expandDeps, hlook] at h
      injection h with h2
      cases h2
    | some insts0 =>
      rw [expandDeps, hlook] at h
      cases hprog : lookupA progs d0 with
      | none => rw [hprog] at h; cases h
      | some dprog =>
        rw [hprog] at h
        obtain ⟨mid, hmid, h2⟩ := RunRes.bind_eq_ok h
        rcases List.mem_cons.mp hd with rfl | hd
        · exact ⟨insts0, hlook⟩
        · exact ih mid cur h2 d hd

theorem expandDeps_ok_provenance (progs : List (String × Program))
    (jobmap : List (String × List JobInstance)) (run : String) :
    ∀ (ds : List String) (init cur : List (Params × List Nat)),
      expandDeps progs jobmap run ds init = .ok (.ok cur) →
      ∀ pd ∈ cur, ∀ x ∈ pd.2, (∃ pr ∈ init, x ∈ pr.2) ∨
        ∃ e ∈ jobmap, ∃ inst ∈ e.2, inst.id = some x := by
  intro ds
  induction ds with
  | nil =>
    intro init cur h pd hpd x hx
    simp only [expandDeps] at h
    cases h
    exact Or.inl ⟨pd, hpd, hx⟩
  | cons d0 rest ih =>
    intro init cur h pd hpd x hx
    cases hlook : lookupA jobmap d0 with
    | none =>
      rw [expandDeps, hlook] at h
      injection h with h2
      cases h2
    | some insts0 =>
      rw [expandDeps, hlook] at h
      cases hprog : lookupA progs d0 with
      | none => rw [hprog] at h; cases h
      | some dprog =>
        rw [hprog] at h
        obtain ⟨mid, hmid, h2⟩ := RunRes.bind_eq_ok h
        rcases ih mid cur h2 pd hpd x hx with ⟨pr, hpr, hxpr⟩ | hjm
        · obtain ⟨pr0, hpr0, inst, hinst, hmerge⟩ := (expandOneDep_ok hmid).2 pr hpr
          obtain ⟨i, hi, _, hds⟩ := mergeDep_ok hmerge
          rw [hds] at hxpr
          rcases List.mem_append.mp hxpr with hxpr | hxi
          · exact Or.inl ⟨pr0, hpr0, hxpr⟩
          · have : x = i := by simpa using hxi
            subst this
            exact Or.inr ⟨(d0, insts0), lookupA_mem hlook, inst, hinst, hi⟩
        · exact Or.inr hjm

theorem expandDeps_single {progs : List (String × Program)}
    {jobmap : List (String × List JobInstance)} {run a : String}
    {init cur : List (Params × List Nat)} {insts : List JobInstance} {dprog : Program}
    (hA : lookupA jobmap a = some insts) (hP : lookupA progs a = some dprog)
    (h : expandDeps progs jobmap run [a] init = .ok (.ok cur)) :
    expandOneDep dprog insts init = .ok cur := by
  rw [expandDeps, hA, hP] at h
  obtain ⟨mid, hmid, h2⟩ := RunRes.bind_eq_ok h
  simp only [expandDeps] at h2
  cases h2
  exact hmid

theorem planJob_deps_elim {progs : List (String × Program)} {threads fuel : Nat}
    {st st2 : PlanState} {job : Job} {prog : Program} {ds : List String}
    {b : List Params}
    (hprog : lookupA progs job.run = some prog)
    (hdeps : job.on_each = some ds)
    (hbatch : job.batch fuel = .ok b)
    (h : planJob progs threads fuel st job = .ok (.ok st2)) :
    ∃ cur insts,
      expandDeps progs st.jobmap job.run ds (b.map (fun p => (p, []))) = .ok (.ok cur) ∧
      validateJobifyList prog threads st.id cur = .ok insts ∧
      st2 = ⟨st.id + insts.length, insertA st.jobmap job.run insts⟩ := by
  rw [planJob, hprog, hdeps] at h
  obtain ⟨b2, hb2, h2⟩ := RunRes.bind_eq_ok h
  rw [hbatch] at hb2
  injection hb2 with hb2
  subst hb2
  obtain ⟨r, hr, h3⟩ := RunRes.map_eq_ok h2
  cases r with
  | error e =>
    simp only [Except.bind] at h3
    cases h3
  | ok cur =>
    simp only [Except.bind] at h3
    cases hvjl : validateJobifyList prog threads st.id cur with
    | error e =>
      rw [hvjl] at h3
      simp only [Except.map] at h3
      cases h3
    | ok insts =>
      rw [hvjl] at h3
      simp only [Except.map] at h3
      injection h3 with h3
      exact ⟨cur, insts, hr, hvjl, h3.symm⟩

theorem planJob_ok_inv {progs : List (String × Program)} {threads fuel : Nat}
    {st st2 : PlanState} {job : Job}
    (h : planJob progs threads fuel st job = .ok (.ok st2)) :
    ∃ insts : List JobInstance,
      st2.id = st.id + insts.length ∧
      st2.jobmap = insertA st.jobmap job.run insts ∧
      (∀ j, (hj : j < insts.length) → insts[j].id = some (st.id + j)) ∧
      (∀ inst ∈ insts, ∀ x ∈ inst.depends,
        ∃ e ∈ st.jobmap, ∃ dinst ∈ e.2, dinst.id = some x) ∧
      (∀ ds, job.on_each = some ds → ∀ d ∈ ds, ∃ di, lookupA st.jobmap d = some di) := by
  cases hprog : lookupA progs job.run with
  | none =>
    rw [planJob, hprog] at h
    injection h with h2
    cases h2
  | some prog =>
    cases hdeps : job.on_each with
    | none =>
      rw [planJob, hprog, hdeps] at h
      dsimp only at h
      cases hval : prog.validate_parameters job.parameters with
      | error e =>
        rw [hval] at h
        dsimp only at h
        injection h with h2
        cases h2
      | ok u =>
        rw [hval] at h
        dsimp only at h
        obtain ⟨b, hb, h2⟩ := RunRes.map_eq_ok h
        cases hjl : jobifyList prog threads st.id (b.map (fun p => (p, []))) with
        | error e =>
          rw [hjl] at h2
          simp only [Except.map] at h2
          cases h2
        | ok insts =>
          rw [hjl] at h2
          simp only [Except.map] at h2
          injection h2 with h2
          subst h2
          obtain ⟨hlen, hidx⟩ := jobifyList_ok prog threads _ _ _ hjl
          refine ⟨insts, by simp, by simp, ?_, ?_, ?_⟩
          · intro j hj
            exact (hidx j (by omega) hj).1
          · intro inst hinst x hx
            obtain ⟨j, hj, hget⟩ := List.mem_iff_getElem.mp hinst
            have hj2 : j < (b.map (fun p => (p, ([] : List Nat)))).length := by omega
            have := (hidx j hj2 hj).2.2.1
            rw [hget] at this
            rw [this] at hx
            have hj3 : j < b.length := by simpa using hj2
            simp at hx
          · intro ds hds
            cases hds
    | some ds0 =>
      have hb := h
      rw [planJob, hprog, hdeps] at hb
      obtain ⟨b, hbatch, h2⟩ := RunRes.bind_eq_ok hb
      obtain ⟨cur, insts, hexp, hvjl, hst2⟩ := planJob_deps_elim hprog hdeps hbatch h
      subst hst2
      obtain ⟨hlen, hidx⟩ := validateJobifyList_ok prog threads cur st.id insts hvjl
      refine ⟨insts, rfl, rfl, ?_, ?_, ?_⟩
      · intro j hj
        exact (hidx j (by omega) hj).1
      · intro inst hinst x hx
        obtain ⟨j, hj, hget⟩ := List.mem_iff_getElem.mp hinst
        have hj2 : j < cur.length := by omega
        have hdep := (hidx j hj2 hj).2.2.1
        rw [hget] at hdep
        rw [hdep] at hx
        have hprov := expandDeps_ok_provenance progs st.jobmap job.run ds0 _ _ hexp
          cur[j] (List.getElem_mem hj2) x hx
        rcases hprov with ⟨pr, hpr, hxpr⟩ | hjm
        · obtain ⟨p, _, hp⟩ := List.mem_map.mp hpr
          rw [← hp] at hxpr
          simp at hxpr
        · exact hjm
      · intro ds hds
        injection hds with hds
        subst hds
        exact expandDeps_ok_depsPresent progs st.jobmap job.run _ _ _ hexp

theorem planJobs_ok_cons {progs : List (String × Program)} {threads fuel : Nat}
    {st st' : PlanState} {j : Job} {rest : List Job}
    (h : planJobs progs threads fuel st (j :: rest) = .ok (.ok st')) :
    ∃ st2, planJob progs threads fuel st j = .ok (.ok st2) ∧
      planJobs progs threads fuel st2 rest = .ok (.ok st') := by
  rw [planJobs] at h
  obtain ⟨r, hr, h2⟩ := RunRes.bind_eq_ok h
  cases r with
  | error e =>
    injection h2 with h3
    cases h3
  | ok st2 => exact ⟨st2, hr, h2⟩

theorem allIds_nil : allIds [] = [] := rfl

theorem allIds_cons (k1 : String) (v1 : List JobInstance)
    (rest : List (String × List JobInstance)) :
    allIds ((k1, v1) :: rest) = v1.filterMap (fun i => i.id) ++ allIds rest := by
  simp [allIds]

theorem mem_allIds {m : List (String × List JobInstance)} {x : Nat} :
    x ∈ allIds m ↔ ∃ e ∈ m, ∃ inst ∈ e.2, inst.id = some x := by
  simp [allIds, List.mem_flatMap, List.mem_filterMap]

theorem allIds_insertA_sub {m : List (String × List JobInstance)} {k : String}
    {v : List JobInstance} :
    ∀ x ∈ allIds (insertA m k v), x ∈ allIds m ∨ x ∈ v.filterMap (fun i => i.id) := by
  induction m with
  | nil =>
    intro x hx
    simp only [insertA, allIds_cons, allIds_nil, List.append_nil] at hx
    exact Or.inr hx
  | cons e rest ih =>
    obtain ⟨k1, v1⟩ := e
    intro x hx
    by_cases hk : k1 = k
    · rw [insertA, if_pos hk, allIds_cons] at hx
      rcases List.mem_append.mp hx with hx | hx
      · exact Or.inr hx
      · exact Or.inl (by rw [allIds_cons]; exact List.mem_append_right _ hx)
    · rw [insertA, if_neg hk, allIds_cons] at hx
      rcases List.mem_append.mp hx with hx | hx
      · exact Or.inl (by rw [allIds_cons]; exact List.mem_append_left _ hx)
      · rcases ih x hx with hx | hx
        · exact Or.inl (by rw [allIds_cons]; exact List.mem_append_right _ hx)
        · exact Or.inr hx

theorem allIds_insertA_nodup {m : List (String × List JobInstance)} {k : String}
    {v : List JobInstance} :
    (allIds m).Nodup → (v.filterMap (fun i => i.id)).Nodup →
    (∀ x ∈ v.filterMap (fun i => i.id), x ∉ allIds m) →
    (allIds (insertA m k v)).Nodup := by
  induction m with
  | nil =>
    intro _ hv _
    simp only [insertA, allIds_cons, allIds_nil, List.append_nil]
    exact hv
  | cons e rest ih =>
    obtain ⟨k1, v1⟩ := e
    intro hm hv hdisj
    rw [allIds_cons] at hm
    have h1 := hm.of_append_left
    have h2 := hm.of_append_right
    have hdisj12 := List.disjoint_of_nodup_append hm
    by_cases hk : k1 = k
    · rw [insertA, if_pos hk, allIds_cons]
      refine List.Nodup.append hv h2 ?_
      intro x hx hx2
      exact hdisj x hx (by rw [allIds_cons]; exact List.mem_append_right _ hx2)
    · rw [insertA, if_neg hk, allIds_cons]
      refine List.Nodup.append h1 ?_ ?_
      · refine ih h2 hv ?_
        intro x hx hx2
        exact hdisj x hx (by rw [allIds_cons]; exact List.mem_append_right _ hx2)
      · intro x hx hx2
        rcases allIds_insertA_sub x hx2 with hx3 | hx3
        · exact hdisj12 hx hx3
        · exact hdisj x hx3 (by rw [allIds_cons]; exact List.mem_append_left _ hx)

theorem filterMap_ids_range :
    ∀ (l : List JobInstance) (s0 : Nat),
      (∀ j, (hj : j < l.length) → l[j].id = some (s0 + j)) →
      l.filterMap (fun i => i.id) = List.range' s0 l.length := by
  intro l
  induction l with
  | nil => intro s0 _; rfl
  | cons a tl ih =>
    intro s0 h
    have h0 : a.id = some s0 := by simpa using h 0 (by simp)
    have htl : ∀ j, (hj : j < tl.length) → tl[j].id = some ((s0 + 1) + j) := by
      intro j hj
      have := h (j + 1) (by simpa using Nat.succ_lt_succ hj)
      simp only [List.getElem_cons_succ] at this
      rw [this]
      congr 1
      omega
    rw [List.filterMap_cons, h0, ih (s0 + 1) htl, List.length_cons, List.range'_succ]

theorem StWF_init : StWF ⟨0, []⟩ := by
  refine ⟨by simp, ?_, ?_, ?_⟩
  · intro e he
    simp at he
  · simp [allIds_nil]
  · intro e he
    simp at he

theorem StWF_preserve {progs : List (String × Program)} {threads fuel : Nat}
    {st st2 : PlanState} {job : Job}
    (hwf : StWF st) (h : planJob progs threads fuel st job = .ok (.ok st2)) :
    StWF st2 ∧ st.id ≤ st2.id ∧
    (∀ k, k ∈ st2.jobmap.map (fun e => e.1) →
      k ∈ st.jobmap.map (fun e => e.1) ∨ k = job.run) := by
  obtain ⟨insts, hid, hmap, hidx, hdeps, _⟩ := planJob_ok_inv h
  obtain ⟨hkeys, hbound, hnodup, hpair⟩ := hwf
  have hids : insts.filterMap (fun i => i.id) = List.range' st.id insts.length :=
    filterMap_ids_range insts st.id hidx
  have hnewmem : ∀ x ∈ insts.filterMap (fun i => i.id),
      st.id ≤ x ∧ x < st.id + insts.length := by
    intro x hx
    rw [hids] at hx
    simpa [List.mem_range'_1] using hx
  have holdlt : ∀ x ∈ allIds st.jobmap, x < st.id := by
    intro x hx
    obtain ⟨e, he, inst, hinst, hidx2⟩ := mem_allIds.mp hx
    obtain ⟨n, hn, hlt, _⟩ := hbound e he inst hinst
    rw [hn] at hidx2
    injection hidx2 with hidx2
    omega
  have hkeys2 : (st2.jobmap.map (fun e => e.1)).Nodup := by
    rw [hmap, keys_insertA]
    by_cases hrun : job.run ∈ st.jobmap.map (fun e => e.1)
    · rw [if_pos hrun]
      exact hkeys
    · rw [if_neg hrun]
      refine List.Nodup.append hkeys (List.nodup_singleton _) ?_
      intro x hx hx2
      simp only [List.mem_singleton] at hx2
      subst hx2
      exact hrun hx
  refine ⟨⟨hkeys2, ?_, ?_, ?_⟩, by omega, ?_⟩
  · intro e he inst hinst
    rw [hmap] at he
    rcases mem_insertA hkeys he with rfl | ⟨he2, _⟩
    · have hinst2 : inst ∈ insts := by simpa using hinst
      obtain ⟨j, hj, hget⟩ := List.mem_iff_getElem.mp hinst2
      refine ⟨st.id + j, by rw [← hget]; exact hidx j hj, by omega, ?_⟩
      intro d hd
      obtain ⟨e2, he2, dinst, hdinst, hdid⟩ := hdeps inst hinst2 d hd
      have : d ∈ allIds st.jobmap := mem_allIds.mpr ⟨e2, he2, dinst, hdinst, hdid⟩
      have := holdlt d this
      omega
    · obtain ⟨n, hn, hlt, hdep⟩ := hbound e he2 inst hinst
      exact ⟨n, hn, by omega, hdep⟩
  · rw [hmap]
    refine allIds_insertA_nodup hnodup ?_ ?_
    · rw [hids]
      simp [List.nodup_range']
    · intro x hx hx2
      have := hnewmem x hx
      have := holdlt x hx2
      omega
  · intro e he
    rw [hmap] at he
    rcases mem_insertA hkeys he with rfl | ⟨he2, _⟩
    · rw [hids]
      simp [List.pairwise_lt_range']
    · exact hpair e he2
  · intro k hk
    rw [hmap, keys_insertA] at hk
    by_cases hrun : job.run ∈ st.jobmap.map (fun e => e.1)
    · rw [if_pos hrun] at hk
      exact Or.inl hk
    · rw [if_neg hrun] at hk
      rcases List.mem_append.mp hk with hk | hk
      · exact Or.inl hk
      · right
        simpa using hk

theorem planJobs_StWF {progs : List (String × Program)} {threads fuel : Nat} :
    ∀ (js : List Job) (st st' : PlanState), StWF st →
      planJobs progs threads fuel st js = .ok (.ok st') → StWF st' := by
  intro js
  induction js with
  | nil =>
    intro st st' hwf h
    rw [planJobs] at h
    injection h with h2
    injection h2 with h3
    rw [← h3]
    exact hwf
  | cons j rest ih =>
    intro st st' hwf h
    obtain ⟨st2, h1, h2⟩ := planJobs_ok_cons h
    exact ih st2 st' (StWF_preserve hwf h1).1 h2

theorem planJobs_deps_declared {progs : List (String × Program)} {threads fuel : Nat} :
    ∀ (js : List Job) (st st' : PlanState),
      planJobs progs threads fuel st js = .ok (.ok st') →
      ∀ i, (hi : i < js.length) → ∀ ds, js[i].on_each = some ds → ∀ d ∈ ds,
        d ∈ st.jobmap.map (fun e => e.1) ∨ ∃ j, j < i ∧ ∃ (hj : j < js.length),
          js[j].run = d := by
  intro js
  induction js with
  | nil =>
    intro st st' h i hi
    simp at hi
  | cons jb rest ih =>
    intro st st' h i hi ds hds d hd
    obtain ⟨st2, h1, h2⟩ := planJobs_ok_cons h
    cases i with
    | zero =>
      simp only [List.getElem_cons_zero] at hds
      obtain ⟨insts2, _, _, _, _, hpres⟩ := planJob_ok_inv h1
      obtain ⟨di, hdi⟩ := hpres ds hds d hd
      left
      exact List.mem_map.mpr ⟨(d, di), lookupA_mem hdi, rfl⟩
    | succ n =>
      simp only [List.getElem_cons_succ] at hds
      have hn : n < rest.length := by simpa using hi
      rcases ih st2 st' h2 n hn ds hds d hd with hmem | ⟨j, hj, hj2, hrun⟩
      · obtain ⟨insts, _, hmap, _, _, _⟩ := planJob_ok_inv h1
        rw [hmap, keys_insertA] at hmem
        by_cases hruns : jb.run ∈ st.jobmap.map (fun e => e.1)
        · rw [if_pos hruns] at hmem
          exact Or.inl hmem
        · rw [if_neg hruns] at hmem
          rcases List.mem_append.mp hmem with hmem | hmem
          · exact Or.inl hmem
          · right
            simp only [List.mem_singleton] at hmem
            exact ⟨0, by omega, by simp, by simp [hmem]⟩
      · exact Or.inr ⟨j + 1, by omega, by simpa using hj2, by simpa using hrun⟩

theorem allIds_eq_flatten (m : List (String × List JobInstance)) :
    allIds m = (m.flatMap (fun e => e.2)).filterMap (fun i => i.id) := by
  induction m with
  | nil => rfl
  | cons e rest ih =>
    obtain ⟨k1, v1⟩ := e
    rw [allIds_cons, List.flatMap_cons, List.filterMap_append, ih]

/-- Claim C8: in every successful plan, ids come from a single counter so
all recorded ids are pairwise distinct and each planned sequence carries
them in increasing creation order, and every depends entry refers to an
instance already recorded when its owner was created, hence is strictly
below the owner's own id. -/
theorem c8_id_invariants (e : Experiment) (threads : Nat)
    (progs : List (String × Program)) (fuel : Nat) (l : List JobInstance)
    (h : Experiment.plan e threads progs fuel = .ok (.ok l)) :
    ∃ st, planJobs progs threads fuel ⟨0, []⟩ e.jobs = .ok (.ok st) ∧
      l = st.jobmap.flatMap (fun en => en.2) ∧ StWF st ∧
      (l.filterMap (fun i => i.id)).Nodup ∧
      (∀ inst ∈ l, ∃ n, inst.id = some n ∧ n < st.id ∧ ∀ d ∈ inst.depends, d < n) := by
  rw [Experiment.plan] at h
  obtain ⟨r, hr, h2⟩ := RunRes.map_eq_ok h
  cases r with
  | error err =>
    simp only [Except.map] at h2
    cases h2
  | ok st =>
    simp only [Except.map] at h2
    injection h2 with h2
    have hwf := planJobs_StWF e.jobs ⟨0, []⟩ st StWF_init hr
    obtain ⟨hkeys, hbound, hnodup, hpair⟩ := hwf
    refine ⟨st, hr, h2.symm, ⟨hkeys, hbound, hnodup, hpair⟩, ?_, ?_⟩
    · rw [← h2, ← allIds_eq_flatten]
      exact hnodup
    · intro inst hinst
      rw [← h2] at hinst
      obtain ⟨en, hen, hin⟩ := List.mem_flatMap.mp hinst
      exact hbound en hen inst hin

/-- Witness for C8 at a one-job experiment planned end to end. -/
theorem c8_id_invariants_witness :
    Experiment.plan expSingle 4 progsSingle 0 = .ok (.ok [instSingle]) ∧
    (∃ st, planJobs progsSingle 4 0 ⟨0, []⟩ expSingle.jobs = .ok (.ok st) ∧
      [instSingle] = st.jobmap.flatMap (fun en => en.2) ∧ StWF st ∧
      ([instSingle].filterMap (fun i => i.id)).Nodup ∧
      (∀ inst ∈ [instSingle], ∃ n, inst.id = some n ∧ n < st.id ∧
        ∀ d ∈ inst.depends, d < n)) :=
  ⟨by decide, c8_id_invariants expSingle 4 progsSingle 0 [instSingle] (by decide)⟩

/-- Claim C7: a job naming a dependency under which no earlier job was
planned can never plan successfully; the dependency loop fails with
UnknownDependency naming the job's run and the missing dependency, and a
per-job error aborts the whole plan call with that error. -/
theorem c7_unknown_dependency :
    (∀ (e : Experiment) (threads fuel : Nat) (progs : List (String × Program))
      (i : Nat) (hi : i < e.jobs.length) (ds : List String) (d : String),
      e.jobs[i].on_each = some ds → d ∈ ds →
      (∀ j, j < i → ∀ (hj : j < e.jobs.length), e.jobs[j].run ≠ d) →
      ∀ l, Experiment.plan e threads progs fuel ≠ .ok (.ok l)) ∧
    (∀ (progs : List (String × Program)) (jobmap : List (String × List JobInstance))
      (run d : String) (rest : List String) (init : List (Params × List Nat)),
      lookupA jobmap d = none →
      expandDeps progs jobmap run (d :: rest) init =
        .ok (.error (.UnknownDependency run d))) ∧
    (∀ (progs : List (String × Program)) (threads fuel : Nat) (st : PlanState)
      (job : Job) (rest : List Job) (err : ErrorKind),
      planJob progs threads fuel st job = .ok (.error err) →
      planJobs progs threads fuel st (job :: rest) = .ok (.error err)) ∧
    (∀ (e : Experiment) (threads fuel : Nat) (progs : List (String × Program))
      (err : ErrorKind),
      planJobs progs threads fuel ⟨0, []⟩ e.jobs = .ok (.error err) →
      Experiment.plan e threads progs fuel = .ok (.error err)) := by
  refine ⟨?_, ?_, ?_, ?_⟩
  · intro e threads fuel progs i hi ds d hds hd hnone l hplan
    rw [Experiment.plan] at hplan
    obtain ⟨r, hr, h2⟩ := RunRes.map_eq_ok hplan
    cases r with
    | error err =>
      simp only [Except.map] at h2
      cases h2
    | ok st =>
      rcases planJobs_deps_declared e.jobs ⟨0, []⟩ st hr i hi ds hds d hd with
        hmem | ⟨j, hj, hj2, hrun⟩
      · simp at hmem
      · exact hnone j hj hj2 hrun
  · intro progs jobmap run d rest init h
    rw [expandDeps, h]
  · intro progs threads fuel st job rest err h
    rw [planJobs, h]
    rfl
  · intro e threads fuel progs err h
    rw [Experiment.plan, h]
    rfl

/-- Claim C9: inserting a planned sequence under an already-used run name
replaces the earlier sequence in the table, so a later job with the same
run name evicts the earlier job's instances from plan's output while
their ids stay consumed by the counter: the expReplace run keeps four of
its six created instances, its output carries no id 0 or 1, and its job b
still depends on the evicted id 0. -/
theorem c9_same_run_replacement :
    (∀ (m : List (String × List JobInstance)) (k : String) (v : List JobInstance),
      lookupA (insertA m k v) k = some v) ∧
    Experiment.plan expReplace 1 progsReplace 0 = .ok (.ok planRepOut) ∧
    planJobs progsReplace 1 0 ⟨0, []⟩ expReplace.jobs = .ok (.ok stRep) ∧
    stRep.id = 6 ∧
    lookupA stRep.jobmap "a" = some [instRepA1, instRepA2] ∧
    (∀ inst ∈ planRepOut, inst.id ≠ some 0 ∧ inst.id ≠ some 1) ∧
    (instRepB1 ∈ planRepOut ∧ 0 ∈ instRepB1.depends) ∧
    (∃ inst ∈ planRepOut, inst.id = some 5) :=
  ⟨fun m k v => lookupA_insertA_self m k v, by decide, by decide, rfl, by decide,
    by decide, by decide, by decide⟩

theorem extend_future_lookup (base aparams : Params) (outs : List (String × Output)) :
    (∀ o ∈ outs.map (fun e => e.1), (outs.map (fun e => e.1)).Nodup →
      lookupA (extendA (extendA base aparams)
        (outs.map (fun e => (e.1, FieldData.Future)))) o = some FieldData.Future) ∧
    (∀ k v, k ∉ outs.map (fun e => e.1) → (aparams.map (fun e => e.1)).Nodup →
      lookupA aparams k = some v →
      lookupA (extendA (extendA base aparams)
        (outs.map (fun e => (e.1, FieldData.Future)))) k = some v) := by
  have hkeys : (outs.map (fun e => (e.1, FieldData.Future))).map (fun e => e.1) =
      outs.map (fun e => e.1) := by
    simp
  constructor
  · intro o ho hnd
    refine lookupA_extendA_mem _ _ _ _ ?_ ?_
    · rw [hkeys]
      exact hnd
    · exact lookupA_map_const outs FieldData.Future o ho
  · intro k v hk hnd hv
    rw [lookupA_extendA_notin _ _ _ (by rw [hkeys]; exact hk)]
    exact lookupA_extendA_mem _ _ _ _ hnd hv

/-- Claim C1: when job B lists on_each [A] and A was planned earlier with
instance sequence I, a successful planning of B records exactly
batch-size-of-B times length-of-I instances under B's run name; each has
a depends list holding exactly one id drawn from I, its params extend B's
own assignment first with the A instance's params (the dependency's value
winning on key collision) and then with one Future entry per output name
A's program declares; with several listed dependencies a later merge
overrides an earlier one on collision. -/
theorem c1_dependency_linking (progs : List (String × Program)) (threads fuel : Nat)
    (st : PlanState) (job : Job) (a : String) (instsA : List JobInstance)
    (prog aprog : Program) (batchB : List Params)
    (hdeps : job.on_each = some [a])
    (hA : lookupA st.jobmap a = some instsA)
    (hprog : lookupA progs job.run = some prog)
    (haprog : lookupA progs a = some aprog)
    (hbatch : job.batch fuel = .ok batchB)
    (hndo : (aprog.outputs.map (fun e => e.1)).Nodup) :
    (∀ st2, planJob progs threads fuel st job = .ok (.ok st2) →
      ∃ insts, lookupA st2.jobmap job.run = some insts ∧
        insts.length = batchB.length * instsA.length ∧
        (∀ inst ∈ insts, ∃ p ∈ batchB, ∃ ainst ∈ instsA, ∃ i,
          ainst.id = some i ∧ inst.depends = [i] ∧
          inst.params = extendA (extendA p ainst.params)
            (aprog.outputs.map (fun e => (e.1, FieldData.Future))) ∧
          (∀ o ∈ aprog.outputs.map (fun e => e.1),
            lookupA inst.params o = some FieldData.Future) ∧
          (∀ k v, k ∉ aprog.outputs.map (fun e => e.1) →
            (ainst.params.map (fun e => e.1)).Nodup →
            lookupA ainst.params k = some v → lookupA inst.params k = some v))) ∧
    (∀ (dp1 dp2 : Program) (i1 i2 : JobInstance) (pr pr1 pr2 : Params × List Nat),
      mergeDep dp1 i1 pr = .ok pr1 → mergeDep dp2 i2 pr1 = .ok pr2 →
      ∀ k v, k ∉ dp2.outputs.map (fun e => e.1) →
        (i2.params.map (fun e => e.1)).Nodup →
        lookupA i2.params k = some v → lookupA pr2.1 k = some v) := by
  constructor
  · intro st2 hok
    obtain ⟨cur, insts, hexp, hvjl, hst2⟩ := planJob_deps_elim hprog hdeps hbatch hok
    have hone := expandDeps_single hA haprog hexp
    obtain ⟨hcurlen, hcurmem⟩ := expandOneDep_ok hone
    obtain ⟨hilen, hidx⟩ := validateJobifyList_ok prog threads cur st.id insts hvjl
    subst hst2
    refine ⟨insts, lookupA_insertA_self _ _ _, ?_, ?_⟩
    · rw [hilen, hcurlen]
      simp
    · intro inst hinst
      obtain ⟨j, hj, hget⟩ := List.mem_iff_getElem.mp hinst
      have hj2 : j < cur.length := by omega
      have hparams := (hidx j hj2 hj).2.1
      have hdep := (hidx j hj2 hj).2.2.1
      rw [hget] at hparams hdep
      obtain ⟨pr, hpr, ainst, hainst, hmerge⟩ := hcurmem cur[j] (List.getElem_mem hj2)
      obtain ⟨i, hi, hp1, hp2⟩ := mergeDep_ok hmerge
      obtain ⟨p, hpB, hpeq⟩ := List.mem_map.mp hpr
      refine ⟨p, hpB, ainst, hainst, i, hi, ?_, ?_, ?_, ?_⟩
      · rw [hdep, hp2, ← hpeq]
        rfl
      · rw [hparams, hp1, ← hpeq]
      · intro o ho
        rw [hparams, hp1]
        exact (extend_future_lookup pr.1 ainst.params aprog.outputs).1 o ho hndo
      · intro k v hk hnd hv
        rw [hparams, hp1]
        exact (extend_future_lookup pr.1 ainst.params aprog.outputs).2 k v hk hnd hv
  · intro dp1 dp2 i1 i2 pr pr1 pr2 h1 h2 k v hk hnd hv
    obtain ⟨x2, _, hp1, _⟩ := mergeDep_ok h2
    rw [hp1]
    exact (extend_future_lookup pr1.1 i2.params dp2.outputs).2 k v hk hnd hv

/-- Witness for C1: three planned instances of A, job B with cartesian
size 2 listing on_each [A]. -/
theorem c1_dependency_linking_witness :
    jobDemoB.on_each = some ["A"] ∧
    lookupA stDemo.jobmap "A" = some [aInst 0, aInst 1, aInst 2] ∧
    lookupA progsDemo jobDemoB.run = some progDemoB ∧
    lookupA progsDemo "A" = some progDemoA ∧
    Job.batch 0 jobDemoB = .ok batchDemoB ∧
    (progDemoA.outputs.map (fun e => e.1)).Nodup ∧
    ((∀ st2, planJob progsDemo 6 0 stDemo jobDemoB = .ok (.ok st2) →
      ∃ insts, lookupA st2.jobmap jobDemoB.run = some insts ∧
        insts.length = batchDemoB.length * [aInst 0, aInst 1, aInst 2].length ∧
        (∀ inst ∈ insts, ∃ p ∈ batchDemoB, ∃ ainst ∈ [aInst 0, aInst 1, aInst 2], ∃ i,
          ainst.id = some i ∧ inst.depends = [i] ∧
          inst.params = extendA (extendA p ainst.params)
            (progDemoA.outputs.map (fun e => (e.1, FieldData.Future))) ∧
          (∀ o ∈ progDemoA.outputs.map (fun e => e.1),
            lookupA inst.params o = some FieldData.Future) ∧
          (∀ k v, k ∉ progDemoA.outputs.map (fun e => e.1) →
            (ainst.params.map (fun e => e.1)).Nodup →
            lookupA ainst.params k = some v → lookupA inst.params k = some v))) ∧
    (∀ (dp1 dp2 : Program) (i1 i2 : JobInstance) (pr pr1 pr2 : Params × List Nat),
      mergeDep dp1 i1 pr = .ok pr1 → mergeDep dp2 i2 pr1 = .ok pr2 →
      ∀ k v, k ∉ dp2.outputs.map (fun e => e.1) →
        (i2.params.map (fun e => e.1)).Nodup →
        lookupA i2.params k = some v → lookupA pr2.1 k = some v)) :=
  ⟨rfl, rfl, rfl, rfl, rfl, by decide,
    c1_dependency_linking progsDemo 6 0 stDemo jobDemoB "A" [aInst 0, aInst 1, aInst 2]
      progDemoB progDemoA batchDemoB rfl rfl rfl rfl rfl (by decide)⟩

end Waluigi
